import Mathlib

/-!
A verification development for the `code-agent-eval` evaluation-runner library.

The TypeScript sources under `src/` are shallowly embedded here:

* pure functions (`calculateAggregateScores`, `validateEnvironmentVariables`,
  record manipulation on JS objects) become Lean functions;
* effectful code (`runSingleIteration`, `runClaudeCodeEval`) becomes explicit
  state passing: every external effect (filesystem copy, git subprocess,
  agent invocation, scorer command) is resolved through an oracle structure
  (`TrialEffects`) recording that effect's outcome for the trial, and the
  trial emits an explicit event trace (`Event`) so that frame conditions
  (what is written where) can be stated;
* JS exceptions / rejected promises become `Except String`;
* filesystem paths become lists of components (`path.join` is list append);
* JS numbers used for scores/statistics become `ℚ`.  The source stores
  `stdDev = Math.sqrt(variance)`; to stay in `ℚ` the embedding stores the
  variance itself in the field `stdDevSq`, from which the source's `stdDev`
  is the nonnegative square root (in particular `stdDevSq = 0` exactly when
  the source's `stdDev = 0`).
-/

namespace CodeAgentEval

/-- Filesystem paths as component lists; `path.join(a, b)` is `a ++ [b]`. -/
abbrev Path := List String

/-- `isUnder root p` : `p` lies in the subtree rooted at `root`
(`root` is a path-prefix of `p`, inclusive). -/
def isUnder : Path → Path → Bool
  | [], _ => true
  | _ :: _, [] => false
  | a :: as, b :: bs => a == b && isUnder as bs

/-- JS record (object) lookup: first entry with the given key. -/
def recGet? {α : Type} (r : List (String × α)) (k : String) : Option α :=
  match r.find? (fun kv => kv.1 == k) with
  | some kv => some kv.2
  | none => none

/-- JS record assignment `r[k] = v`: overwrite in place if the key exists,
append otherwise (JS objects keep first-insertion key order). -/
def recSet {α : Type} (r : List (String × α)) (k : String) (v : α) : List (String × α) :=
  if r.any (fun kv => kv.1 == k) then
    r.map (fun kv => if kv.1 == k then (k, v) else kv)
  else r ++ [(k, v)]

/-- A dynamically-typed JS value supplied as an environment-variable value:
either an actual string or a non-string (tagged with its `typeof`). -/
inductive EnvValue where
  | str (s : String)
  | nonStr (typeName : String)
deriving DecidableEq

/-- String conversion used by template interpolation in the source. -/
def EnvValue.toStr : EnvValue → String
  | .str s => s
  | .nonStr t => t

/-- Whether the JS value is a string (`typeof value === 'string'`). -/
def EnvValue.isStr : EnvValue → Bool
  | .str _ => true
  | .nonStr _ => false

/-- An environment-variable record as produced by the generator. -/
abbrev EnvRec := List (String × EnvValue)

/-- From `src/types.ts`: a scorer's result. -/
structure ScorerResult where
  score : ℚ
  reason : String
deriving DecidableEq

/-- From `src/types.ts`: token usage extracted from the agent's result message. -/
structure TokenUsage where
  inputTokens : ℕ
  outputTokens : ℕ
  cacheCreationInputTokens : Option ℕ
  cacheReadInputTokens : Option ℕ
deriving DecidableEq

/-- From `src/types.ts`: context handed to the environment generator. -/
structure EnvGeneratorContext where
  iteration : ℕ
  evalName : String
  totalIterations : Option ℕ
deriving DecidableEq

/-- From `src/types.ts`: the context handed to each scorer by the runner
(`workingDir`, `diff`, `agentOutput`, `environmentVariables`). -/
structure ScorerContext where
  workingDir : Path
  diff : String
  agentOutput : String
  environmentVariables : EnvRec

/-- From `src/types.ts` / `src/runner.ts`: a named scorer.  Its `fn` is a
function of the scorer context; a throwing scorer / rejected promise is an
`Except.error`. -/
structure Scorer where
  name : String
  fn : ScorerContext → Except String ScorerResult

/-- From `src/types.ts`: one iteration's (trial's) result record. -/
structure IterationResult where
  iterationId : ℕ
  success : Bool
  duration : ℕ
  scores : List (String × ScorerResult)
  diff : String
  tokenUsage : Option TokenUsage
  workingDir : Option Path
  environmentVariables : EnvRec
  error : Option String

/-- From `src/types.ts`: aggregate statistics for one scorer name.
`stdDevSq` holds the variance; the source's `stdDev` is its square root. -/
structure AggregateScore where
  mean : ℚ
  min : ℚ
  max : ℚ
  stdDevSq : ℚ
  passRate : ℚ
deriving DecidableEq

/-- From `src/types.ts`: the final report of a run. -/
structure EvalResult where
  evalName : String
  timestamp : String
  success : Bool
  duration : ℕ
  iterations : List IterationResult
  aggregateScores : List (String × AggregateScore)
  tokenUsage : Option TokenUsage

/-- The `environmentVariables` field of `EvalConfig` in `src/runner.ts`:
absent, a static record, or a (possibly async) generator function of the
iteration context.  A throwing generator is a function returning `.error`. -/
inductive EnvSpec where
  | noSpec
  | static (vars : EnvRec)
  | func (f : EnvGeneratorContext → Except String EnvRec)

/-- From `src/runner.ts`: the caller-supplied evaluation configuration.
`claudeCodeOptions` only merges extra options into the agent invocation and
is absorbed into the agent-outcome oracle. -/
structure EvalConfig where
  name : String
  prompt : String
  projectDir : Path
  timeout : Option ℕ
  scorers : List Scorer
  verbose : Bool
  keepTempDir : Bool
  environmentVariables : EnvSpec

/-- From `src/env-generator.ts` (`generateEnvironmentVariables`): resolve the
configured environment source for one iteration. -/
def generateEnvironmentVariables (spec : EnvSpec) (ctx : EnvGeneratorContext) :
    Except String EnvRec :=
  match spec with
  | .noSpec => .ok []
  | .static vars => .ok vars
  | .func f => f ctx

/-- The character class of `/^[A-Z_][A-Z0-9_]*$/i` at position 0. -/
def isEnvNameHead (c : Char) : Bool := c.isAlpha || c == '_'

/-- The character class of `/^[A-Z_][A-Z0-9_]*$/i` after position 0. -/
def isEnvNameTail (c : Char) : Bool := c.isAlpha || c.isDigit || c == '_'

/-- The test `/^[A-Z_][A-Z0-9_]*$/i.test(key)` from `src/env-generator.ts`. -/
def validEnvName (s : String) : Bool :=
  match s.toList with
  | [] => false
  | c :: cs => isEnvNameHead c && cs.all isEnvNameTail

/-- From `src/env-generator.ts` (`validateEnvironmentVariables`): walk the
entries in order; throw on the first invalid name, then on the first
non-string value (the warning for critical names does not throw). -/
def validateEnvironmentVariables : EnvRec → Except String Unit
  | [] => .ok ()
  | (k, v) :: rest =>
    if validEnvName k then
      match v with
      | .str _ => validateEnvironmentVariables rest
      | .nonStr t =>
        .error ("Environment variable \"" ++ k ++ "\" must be a string, got " ++ t)
    else
      .error ("Invalid environment variable name: \"" ++ k ++ "\". " ++
        "Names must start with letter or underscore and contain only letters, numbers, and underscores.")

/-- The observable effects of one trial, in program order.
`procEnvSet` is a write to the process-wide environment table
(`Object.assign(process.env, envVars)`); `procEnvRestore` is the restoring
assignment `process.env = originalEnv` in the inner `finally`. -/
inductive Event where
  | fsCopy (src dst : Path)
  | gitInit (cwd : Path)
  | gitAdd (cwd : Path)
  | gitCommit (cwd : Path)
  | fsWriteFile (file : Path) (content : String)
  | procEnvSet (key : String) (value : EnvValue)
  | procEnvRestore
  | agentInvoke (cwd : Path)
  | gitDiff (cwd : Path)
  | scorerRun (name : String) (workingDir : Path)
  | fsRemove (dir : Path)
deriving DecidableEq

/-- The filesystem subtree an event mutates (or is directed at), if any.
`procEnvSet`/`procEnvRestore` touch process state, not the filesystem;
`git diff` only reads. -/
def Event.writeRoot : Event → Option Path
  | .fsCopy _ dst => some dst
  | .gitInit cwd => some cwd
  | .gitAdd cwd => some cwd
  | .gitCommit cwd => some cwd
  | .fsWriteFile file _ => some file
  | .procEnvSet _ _ => none
  | .procEnvRestore => none
  | .agentInvoke cwd => some cwd
  | .gitDiff _ => none
  | .scorerRun _ wd => some wd
  | .fsRemove dir => some dir

/-- Whether the event writes to the process-wide environment table. -/
def Event.isProcEnvSet : Event → Bool
  | .procEnvSet _ _ => true
  | _ => false

/-- Oracle for one trial's external effects: the values the surrounding
world produces at each effect the source performs, and the random / clock
inputs (`uuid`, `durationMs`).  `some msg` in an `…Err` field means that
call throws with that message. -/
structure TrialEffects where
  tmpdir : Path
  uuid : String
  durationMs : ℕ
  copyErr : Option String
  isGitRepo : Bool
  gitInitErr : Option String
  gitAddErr : Option String
  gitCommitErr : Option String
  envWriteErr : Option String
  agentResult : Except String (String × Option TokenUsage)
  diffResult : Except String String

/-- `path.join(os.tmpdir(), "eval-" + evalId)` from `src/runner.ts`. -/
def trialTempDir (io : TrialEffects) : Path :=
  io.tmpdir ++ ["eval-" ++ io.uuid]

/-- The payload of a trial body that ran to completion. -/
structure TrialPayload where
  scores : List (String × ScorerResult)
  diff : String
  tokenUsage : Option TokenUsage

/-- Steps 1–2 of `runSingleIteration`: git baseline initialization in the
temp dir (`git init` / `git add .` / `git commit`), skipped when the copy
already contains a `.git`. -/
def gitPhase (io : TrialEffects) (tempDir : Path) : Except String Unit × List Event :=
  if io.isGitRepo then (.ok (), [])
  else
    match io.gitInitErr with
    | some m => (.error m, [.gitInit tempDir])
    | none =>
      match io.gitAddErr with
      | some m => (.error m, [.gitInit tempDir, .gitAdd tempDir])
      | none =>
        match io.gitCommitErr with
        | some m => (.error m, [.gitInit tempDir, .gitAdd tempDir, .gitCommit tempDir])
        | none => (.ok (), [.gitInit tempDir, .gitAdd tempDir, .gitCommit tempDir])

/-- The `.env` file content `KEY=value` lines, joined with newlines. -/
def envFileContent (envVars : EnvRec) : String :=
  String.intercalate "\n" (envVars.map (fun kv => kv.1 ++ "=" ++ kv.2.toStr))

/-- Step 3 of `runSingleIteration`: write the project-local `.env`
declaration file into the workspace when any variables were generated. -/
def envFilePhase (io : TrialEffects) (tempDir : Path) (envVars : EnvRec) :
    Except String Unit × List Event :=
  if envVars.isEmpty then (.ok (), [])
  else
    match io.envWriteErr with
    | some m => (.error m, [.fsWriteFile (tempDir ++ [".env"]) (envFileContent envVars)])
    | none => (.ok (), [.fsWriteFile (tempDir ++ [".env"]) (envFileContent envVars)])

/-- Step 6 of `runSingleIteration`: the scorer loop.  Each configured
scorer is invoked in order with the shared context; its result is assigned
into the `scores` record.  There is no handler around the invocation: a
scorer that throws aborts the loop and the exception escapes. -/
def scorerLoop : List Scorer → ScorerContext → List (String × ScorerResult) →
    Except String (List (String × ScorerResult)) × List Event
  | [], _, acc => (.ok acc, [])
  | s :: rest, ctx, acc =>
    match s.fn ctx with
    | .error m => (.error m, [.scorerRun s.name ctx.workingDir])
    | .ok r =>
      let next := scorerLoop rest ctx (recSet acc s.name r)
      (next.1, .scorerRun s.name ctx.workingDir :: next.2)

/-- The scorer context the runner builds for one trial
(`{workingDir: tempDir, diff, agentOutput, environmentVariables: envVars}`). -/
def scorerCtxFor (tempDir : Path) (diff agentOutput : String) (envVars : EnvRec) :
    ScorerContext :=
  { workingDir := tempDir, diff := diff, agentOutput := agentOutput,
    environmentVariables := envVars }

/-- Steps 4–6 of `runSingleIteration` (the inner `try`): invoke the agent
in the temp dir, capture `git diff HEAD`, then run the scorers. -/
def agentAndScore (cfg : EvalConfig) (io : TrialEffects) (tempDir : Path)
    (envVars : EnvRec) : Except String TrialPayload × List Event :=
  match io.agentResult with
  | .error m => (.error m, [.agentInvoke tempDir])
  | .ok (agentOutput, usage) =>
    match io.diffResult with
    | .error m => (.error m, [.agentInvoke tempDir, .gitDiff tempDir])
    | .ok diff =>
      let sctx := scorerCtxFor tempDir diff agentOutput envVars
      let sres := scorerLoop cfg.scorers sctx []
      match sres.1 with
      | .error m =>
        (.error m, [.agentInvoke tempDir, .gitDiff tempDir] ++ sres.2)
      | .ok scores =>
        (.ok { scores := scores, diff := diff, tokenUsage := usage },
          [.agentInvoke tempDir, .gitDiff tempDir] ++ sres.2)

/-- The outer `try` body of `runSingleIteration` (steps 1–6) together with
the inner `finally` restoring `process.env`: copy the project, establish the
git baseline, write the `.env` file, assign the generated variables into the
process-wide environment table, run agent/diff/scorers, restore the
environment.  Any throw in these steps escapes this function as `.error`
(to be caught by the trial-level `catch`); the event list records what ran
before the throw. -/
def trialBody (cfg : EvalConfig) (io : TrialEffects) (tempDir : Path)
    (envVars : EnvRec) : Except String TrialPayload × List Event :=
  let e0 : List Event := [.fsCopy cfg.projectDir tempDir]
  match io.copyErr with
  | some m => (.error m, e0)
  | none =>
    let git := gitPhase io tempDir
    match git.1 with
    | .error m => (.error m, e0 ++ git.2)
    | .ok _ =>
      let envw := envFilePhase io tempDir envVars
      match envw.1 with
      | .error m => (.error m, e0 ++ git.2 ++ envw.2)
      | .ok _ =>
        let eSet : List Event := envVars.map (fun kv => .procEnvSet kv.1 kv.2)
        let core := agentAndScore cfg io tempDir envVars
        (core.1, e0 ++ git.2 ++ envw.2 ++ eSet ++ core.2 ++ [.procEnvRestore])

/-- The environment phase of `runSingleIteration`, which runs before the
trial's `try`: generate this iteration's variables, then validate them.
A throw here escapes `runSingleIteration` itself. -/
def envPhase (cfg : EvalConfig) (ctx : EnvGeneratorContext) : Except String EnvRec :=
  match generateEnvironmentVariables cfg.environmentVariables ctx with
  | .error m => .error m
  | .ok envVars =>
    match validateEnvironmentVariables envVars with
    | .error m => .error m
    | .ok _ => .ok envVars

/-- Assembly of the `IterationResult` from the body outcome: the success
path computes `success` as `every score === 1.0`; the `catch` path records
the message, an empty score record and `success: false` (and, as in the
source, no `workingDir` even when `keepTempDir` is set). -/
def finishTrial (cfg : EvalConfig) (io : TrialEffects) (ctx : EnvGeneratorContext)
    (tempDir : Path) (envVars : EnvRec) :
    Except String TrialPayload → IterationResult
  | .ok p =>
    { iterationId := ctx.iteration,
      success := (p.scores.map (fun kv => kv.2)).all (fun s => s.score == 1),
      duration := io.durationMs,
      scores := p.scores,
      diff := p.diff,
      tokenUsage := p.tokenUsage,
      workingDir := if cfg.keepTempDir then some tempDir else none,
      environmentVariables := envVars,
      error := none }
  | .error m =>
    { iterationId := ctx.iteration,
      success := false,
      duration := io.durationMs,
      scores := [],
      diff := "",
      tokenUsage := none,
      workingDir := none,
      environmentVariables := envVars,
      error := some m }

/-- From `src/runner.ts` (`runSingleIteration`): one trial.  The
environment phase runs before the error-containment `try`, so its errors
escape; every error inside the body is caught and recorded on the result.
The outer `finally` removes the temp dir unless `keepTempDir` is set. -/
def runSingleIteration (cfg : EvalConfig) (io : TrialEffects)
    (ctx : EnvGeneratorContext) : Except String (IterationResult × List Event) :=
  match envPhase cfg ctx with
  | .error m => .error m
  | .ok envVars =>
    let tempDir := trialTempDir io
    let body := trialBody cfg io tempDir envVars
    let cleanupEvents : List Event :=
      if cfg.keepTempDir then [] else [.fsRemove tempDir]
    .ok (finishTrial cfg io ctx tempDir envVars body.1, body.2 ++ cleanupEvents)

/-- JS `Set` insertion-order deduplication, keeping first occurrences. -/
def dedupFirst (l : List String) : List String :=
  l.foldl (fun acc n => if acc.contains n then acc else acc ++ [n]) []

/-- `results.map(r => r.scores[scorerName]?.score).filter(s => s !== undefined)`
from `calculateAggregateScores`: the raw scores of the trials that reported
the scorer. -/
def reportedScores (results : List IterationResult) (scorerName : String) : List ℚ :=
  results.filterMap (fun r => (recGet? r.scores scorerName).map (fun sr => sr.score))

/-- The per-scorer statistics block of `calculateAggregateScores`, over a
nonempty score list `s :: rest` (the source `continue`s on an empty one).
`stdDevSq` is the variance whose square root the source stores. -/
def aggForScores (s : ℚ) (rest : List ℚ) : AggregateScore :=
  let scores := s :: rest
  let n : ℚ := scores.length
  let mean := scores.sum / n
  let minv := rest.foldl min s
  let maxv := rest.foldl max s
  let variance := (scores.map (fun x => (x - mean) ^ 2)).sum / n
  let passRate := ((scores.filter (fun x => 1 ≤ x)).length : ℚ) / n
  { mean := mean, min := minv, max := maxv, stdDevSq := variance, passRate := passRate }

/-- The synthetic `_overall` entry: `overallPassRate` is the fraction of
successful trials; `mean/min/max/passRate` are all that fraction, while the
source sets `stdDev: 0` (here `stdDevSq := 0`). -/
def overallAgg (results : List IterationResult) : AggregateScore :=
  let p : ℚ := ((results.filter (fun r => r.success)).length : ℚ) / (results.length : ℚ)
  { mean := p, min := p, max := p, stdDevSq := 0, passRate := p }

/-- The loop body of `calculateAggregateScores`: skip a scorer name no
trial reported (`if (scores.length === 0) continue`), otherwise assign its
statistics block. -/
def aggStep (results : List IterationResult) (acc : List (String × AggregateScore))
    (name : String) : List (String × AggregateScore) :=
  match reportedScores results name with
  | [] => acc
  | s :: rest => recSet acc name (aggForScores s rest)

/-- From `src/runner.ts` (`calculateAggregateScores`): per-scorer statistics
over the trials that reported each scorer name, plus the synthetic
`_overall` entry computed from trial-level `success`. -/
def calculateAggregateScores (results : List IterationResult) :
    List (String × AggregateScore) :=
  let names := dedupFirst (results.flatMap (fun r => r.scores.map (fun kv => kv.1)))
  let per := names.foldl (aggStep results) []
  recSet per "_overall" (overallAgg results)

/-- The `results.reduce` accumulating token usage in `runClaudeCodeEval`. -/
def totalTokenUsage (results : List IterationResult) : TokenUsage :=
  results.foldl (fun acc r =>
    match r.tokenUsage with
    | none => acc
    | some u =>
      { inputTokens := acc.inputTokens + u.inputTokens,
        outputTokens := acc.outputTokens + u.outputTokens,
        cacheCreationInputTokens :=
          some ((acc.cacheCreationInputTokens.getD 0) + (u.cacheCreationInputTokens.getD 0)),
        cacheReadInputTokens :=
          some ((acc.cacheReadInputTokens.getD 0) + (u.cacheReadInputTokens.getD 0)) })
    { inputTokens := 0, outputTokens := 0,
      cacheCreationInputTokens := some 0, cacheReadInputTokens := some 0 }

/-- Oracle for a whole run: per-iteration trial effects plus the run-level
clock values. -/
structure RunEffects where
  trial : ℕ → TrialEffects
  timestamp : String
  durationMs : ℕ

/-- The `EnvGeneratorContext` built for iteration `i` in the
`runClaudeCodeEval` loop. -/
def mkCtx (cfg : EvalConfig) (iterations i : ℕ) : EnvGeneratorContext :=
  { iteration := i, evalName := cfg.name, totalIterations := some iterations }

/-- The sequential iteration loop of `runClaudeCodeEval`, over a list of
iteration indices: each trial is awaited in order; a rejection (only the
environment phase can produce one) aborts the remaining iterations. -/
def runTrialsOn (cfg : EvalConfig) (io : RunEffects) (iterations : ℕ) :
    List ℕ → Except String (List IterationResult × List Event)
  | [] => .ok ([], [])
  | i :: rest =>
    match runSingleIteration cfg (io.trial i) (mkCtx cfg iterations i) with
    | .error m => .error m
    | .ok (r, ev) =>
      match runTrialsOn cfg io iterations rest with
      | .error m => .error m
      | .ok (rs, evs) => .ok (r :: rs, ev ++ evs)

/-- From `src/runner.ts` (`runClaudeCodeEval`): run `iterations` trials
sequentially (iteration `i` gets context `i`), then aggregate.  The run's
event trace is the concatenation of the trials' traces. -/
def runClaudeCodeEval (cfg : EvalConfig) (io : RunEffects) (iterations : ℕ) :
    Except String (EvalResult × List Event) :=
  match runTrialsOn cfg io iterations (List.range iterations) with
  | .error m => .error m
  | .ok (results, evs) =>
    let total := totalTokenUsage results
    .ok ({ evalName := cfg.name,
           timestamp := io.timestamp,
           success := results.all (fun r => r.success),
           duration := io.durationMs,
           iterations := results,
           aggregateScores := calculateAggregateScores results,
           tokenUsage := if 0 < total.inputTokens then some total else none }, evs)

/-- From `src/types.ts`: the execution strategy selector. -/
inductive ExecutionMode where
  | sequential
  | parallel
  | parallelLimit
deriving DecidableEq

/-- From `src/types.ts`: execution configuration; `concurrency` is required
when `mode = parallelLimit`. -/
structure ExecutionConfig where
  mode : ExecutionMode
  concurrency : Option ℕ
deriving DecidableEq

/-- Modelled from the spec: the execution-mode-aware entry point (the
`runClaudeCodeEval` accepting an `ExecutionConfig`) is declared in
`src/types.ts` and exercised by the repository's tests and examples, but its
implementation is not under `src/`.  Per §4.4/§7/§8 of the spec it validates
the configuration first — `parallel-limit` with no `concurrency` raises a
fatal `ConfigurationError` before any trial starts or workspace is
provisioned — and otherwise runs the trials (all strategies produce the same
result set; the sequential model is used for it).  The second component is
the run's event trace: empty when the run aborts on configuration. -/
def runEvalWithExecution (cfg : EvalConfig) (exec : ExecutionConfig)
    (io : RunEffects) (iterations : ℕ) : Except String EvalResult × List Event :=
  match exec.mode, exec.concurrency with
  | .parallelLimit, none =>
    (.error "ConfigurationError: concurrency is required when mode is \"parallel-limit\"", [])
  | _, _ =>
    match runClaudeCodeEval cfg io iterations with
    | .error m => (.error m, [])
    | .ok (res, evs) => (.ok res, evs)

/-- From `src/types.ts`: the temp-directory cleanup policy. -/
inductive TempDirCleanup where
  | always
  | onFailure
  | never
deriving DecidableEq

/-- Modelled from the spec: whether the cleanup policy together with the
trial outcome dictates retaining the workspace (`always` delete,
`on-failure` retain only failed trials, `never` delete nothing).  The
policy-aware disposal step is declared in `src/types.ts` and used by the
repository's examples, but its implementation is not under `src/`. -/
def shouldRetainWorkspace (policy : TempDirCleanup) (success : Bool) : Bool :=
  match policy with
  | .always => false
  | .onFailure => !success
  | .never => true

/-- Modelled from the spec: `dispose(workspace, policy, outcome)` — delete
the workspace unless the policy and the trial outcome dictate retention, in
which case the workspace path is recorded on the trial's result. -/
def disposeWorkspace (policy : TempDirCleanup) (tempDir : Path)
    (r : IterationResult) : IterationResult × List Event :=
  if shouldRetainWorkspace policy r.success then
    ({ r with workingDir := some tempDir }, [])
  else
    ({ r with workingDir := none }, [.fsRemove tempDir])

/-! ### Record lemmas -/

theorem recGet_cons {α : Type} (kv : String × α) (rest : List (String × α)) (k : String) :
    recGet? (kv :: rest) k = if kv.1 == k then some kv.2 else recGet? rest k := by
  by_cases h : kv.1 == k <;> simp [recGet?, List.find?, h]

theorem recSet_cons_ne {α : Type} (kv : String × α) (rest : List (String × α))
    (k : String) (v : α) (h : ¬ kv.1 = k) :
    recSet (kv :: rest) k v = kv :: recSet rest k v := by
  by_cases ha : rest.any (fun p => p.1 == k) <;>
    simp [recSet, h, ha]

theorem recSet_cons_eq {α : Type} (kv : String × α) (rest : List (String × α))
    (k : String) (v : α) (h : kv.1 = k) :
    recSet (kv :: rest) k v =
      (k, v) :: rest.map (fun kv => if kv.1 == k then (k, v) else kv) := by
  simp [recSet, h]

theorem recGet_recSet_self {α : Type} (r : List (String × α)) (k : String) (v : α) :
    recGet? (recSet r k v) k = some v := by
  induction r with
  | nil => simp [recSet, recGet?, List.find?]
  | cons kv rest ih =>
    by_cases h : kv.1 = k
    · rw [recSet_cons_eq kv rest k v h, recGet_cons]
      simp
    · rw [recSet_cons_ne kv rest k v h, recGet_cons]
      simp [h, ih]

theorem recGet_map_overwrite {α : Type} (rest : List (String × α)) (k k2 : String) (v : α)
    (h : ¬ k = k2) :
    recGet? (rest.map (fun kv => if kv.1 == k then (k, v) else kv)) k2 = recGet? rest k2 := by
  induction rest with
  | nil => rfl
  | cons kv rest ih =>
    rw [List.map_cons]
    by_cases hh : kv.1 = k
    · rw [show (if kv.1 == k then (k, v) else kv) = (k, v) from by simp [hh]]
      rw [recGet_cons, recGet_cons, ih]
      simp [h, hh]
    · rw [show (if kv.1 == k then (k, v) else kv) = kv from by simp [hh]]
      rw [recGet_cons, recGet_cons, ih]

theorem recGet_recSet_ne {α : Type} (r : List (String × α)) (k k2 : String) (v : α)
    (h : ¬ k = k2) :
    recGet? (recSet r k v) k2 = recGet? r k2 := by
  induction r with
  | nil =>
    have hb : (k == k2) = false := by simpa using h
    simp [recSet, recGet?, List.find?, hb]
  | cons kv rest ih =>
    by_cases hh : kv.1 = k
    · rw [recSet_cons_eq kv rest k v hh, recGet_cons, recGet_cons,
        recGet_map_overwrite rest k k2 v h]
      simp [h, hh ▸ h]
    · rw [recSet_cons_ne kv rest k v hh, recGet_cons, recGet_cons, ih]

/-! ### dedupFirst lemmas -/

theorem dedupFirst_go_mem (l : List String) (acc : List String) (x : String) :
    x ∈ l.foldl (fun acc n => if acc.contains n then acc else acc ++ [n]) acc ↔
      x ∈ acc ∨ x ∈ l := by
  induction l generalizing acc with
  | nil => simp
  | cons n ns ih =>
    rw [List.foldl_cons]
    by_cases h : acc.contains n
    · have hn : n ∈ acc := by simpa using h
      rw [if_pos h, ih]
      simp only [List.mem_cons]
      constructor
      · rintro (hx | hx)
        · exact Or.inl hx
        · exact Or.inr (Or.inr hx)
      · rintro (hx | rfl | hx)
        · exact Or.inl hx
        · exact Or.inl hn
        · exact Or.inr hx
    · rw [if_neg h, ih]
      simp only [List.mem_append, List.mem_singleton, List.mem_cons]
      tauto

theorem mem_dedupFirst (l : List String) (x : String) : x ∈ dedupFirst l ↔ x ∈ l := by
  rw [dedupFirst, dedupFirst_go_mem]
  simp

theorem dedupFirst_go_nodup (l : List String) (acc : List String) (hacc : acc.Nodup) :
    (l.foldl (fun acc n => if acc.contains n then acc else acc ++ [n]) acc).Nodup := by
  induction l generalizing acc with
  | nil => simpa
  | cons n ns ih =>
    rw [List.foldl_cons]
    by_cases h : acc.contains n
    · rw [if_pos h]; exact ih acc hacc
    · rw [if_neg h]
      refine ih _ ?_
      have hn : n ∉ acc := by simpa using h
      simpa [List.concat_eq_append] using hacc.concat hn

theorem dedupFirst_nodup (l : List String) : (dedupFirst l).Nodup :=
  dedupFirst_go_nodup l [] List.nodup_nil

/-! ### Path lemmas -/

theorem isUnder_refl (p : Path) : isUnder p p = true := by
  induction p with
  | nil => rfl
  | cons a as ih => simp [isUnder, ih]

theorem isUnder_append (r t : Path) : isUnder r (r ++ t) = true := by
  induction r with
  | nil => rfl
  | cons a as ih => simp [isUnder, ih]

theorem isUnder_append_left (a b c : Path) (h : isUnder (a ++ b) c = true) :
    isUnder a c = true := by
  induction a generalizing c with
  | nil => rfl
  | cons x xs ih =>
    cases c with
    | nil => simp [isUnder] at h
    | cons y ys =>
      simp only [List.cons_append, isUnder, Bool.and_eq_true] at h ⊢
      exact ⟨h.1, ih ys h.2⟩

theorem isUnder_append_split (x y l : Path) (h : isUnder x (y ++ l) = true) :
    isUnder x y = true ∨ isUnder y x = true := by
  induction y generalizing x with
  | nil => exact Or.inr rfl
  | cons b bs ih =>
    cases x with
    | nil => exact Or.inl rfl
    | cons a as =>
      simp only [List.cons_append, isUnder, Bool.and_eq_true] at h
      have hab : a = b := by simpa using h.1
      rcases ih as h.2 with h2 | h2
      · exact Or.inl (by simp [isUnder, hab, h2])
      · cases hab
        exact Or.inr (by simp [isUnder, h2])

/-! ### Counting lemmas -/

theorem length_filterMap_eq_count {α β : Type} (f : α → Option β) (L : List α) :
    (L.filterMap f).length = (L.filter (fun a => (f a).isSome)).length := by
  induction L with
  | nil => rfl
  | cons a l ih =>
    cases h : f a <;> simp [List.filterMap_cons, h, List.filter_cons, ih]

theorem length_filter_filterMap {α β : Type} (f : α → Option β) (p : β → Bool) (L : List α) :
    ((L.filterMap f).filter p).length =
      (L.filter (fun a => ((f a).map p).getD false)).length := by
  induction L with
  | nil => rfl
  | cons a l ih =>
    cases h : f a with
    | none => simp [List.filterMap_cons, h, List.filter_cons, ih]
    | some b =>
      by_cases hp : p b <;>
        simp [List.filterMap_cons, h, List.filter_cons, hp, ih]

/-! ### Trial-level lemmas -/

theorem runSingleIteration_ok_eq (cfg : EvalConfig) (io : TrialEffects)
    (ctx : EnvGeneratorContext) (vs : EnvRec) (h : envPhase cfg ctx = .ok vs) :
    runSingleIteration cfg io ctx =
      .ok (finishTrial cfg io ctx (trialTempDir io) vs
             (trialBody cfg io (trialTempDir io) vs).1,
           (trialBody cfg io (trialTempDir io) vs).2 ++
             (if cfg.keepTempDir then [] else [Event.fsRemove (trialTempDir io)])) := by
  simp [runSingleIteration, h]

theorem runSingleIteration_error_eq (cfg : EvalConfig) (io : TrialEffects)
    (ctx : EnvGeneratorContext) (m : String) (h : envPhase cfg ctx = .error m) :
    runSingleIteration cfg io ctx = .error m := by
  simp [runSingleIteration, h]

theorem finishTrial_iterationId (cfg : EvalConfig) (io : TrialEffects)
    (ctx : EnvGeneratorContext) (tempDir : Path) (vs : EnvRec)
    (b : Except String TrialPayload) :
    (finishTrial cfg io ctx tempDir vs b).iterationId = ctx.iteration := by
  cases b <;> rfl

theorem finishTrial_error_fields (cfg : EvalConfig) (io : TrialEffects)
    (ctx : EnvGeneratorContext) (tempDir : Path) (vs : EnvRec) (m : String) :
    (finishTrial cfg io ctx tempDir vs (.error m)).success = false ∧
    (finishTrial cfg io ctx tempDir vs (.error m)).error = some m ∧
    (finishTrial cfg io ctx tempDir vs (.error m)).scores = [] :=
  ⟨rfl, rfl, rfl⟩

/-! ### Scheduler lemmas -/

theorem runTrialsOn_ok (cfg : EvalConfig) (io : RunEffects) (N : ℕ) (L : List ℕ)
    (henv : ∀ i, i ∈ L → ∃ vs, envPhase cfg (mkCtx cfg N i) = .ok vs) :
    ∃ rs evs, runTrialsOn cfg io N L = .ok (rs, evs) ∧
      rs.length = L.length ∧
      (∀ (j i : ℕ), L[j]? = some i →
        ∃ r ev, runSingleIteration cfg (io.trial i) (mkCtx cfg N i) = .ok (r, ev) ∧
          rs[j]? = some r) ∧
      (∀ e, e ∈ evs → ∃ i r ev, i ∈ L ∧
        runSingleIteration cfg (io.trial i) (mkCtx cfg N i) = .ok (r, ev) ∧ e ∈ ev) := by
  induction L with
  | nil =>
    refine ⟨[], [], rfl, rfl, ?_, ?_⟩
    · intro j i hj; simp at hj
    · intro e he; simp at he
  | cons hd tl ih =>
    obtain ⟨vs, hvs⟩ := henv hd (List.mem_cons_self hd tl)
    obtain ⟨rs, evs, hrun, hlen, hidx, hev⟩ :=
      ih (fun i hi => henv i (List.mem_cons_of_mem hd hi))
    obtain ⟨r0, ev0, hhd⟩ :
        ∃ r0 ev0, runSingleIteration cfg (io.trial hd) (mkCtx cfg N hd) = .ok (r0, ev0) :=
      ⟨_, _, runSingleIteration_ok_eq cfg (io.trial hd) (mkCtx cfg N hd) vs hvs⟩
    refine ⟨r0 :: rs, ev0 ++ evs, ?_, by simp [hlen], ?_, ?_⟩
    · simp only [runTrialsOn, hhd, hrun]
    · intro j i hj
      cases j with
      | zero =>
        have : hd = i := by simpa using hj
        subst this
        exact ⟨_, _, hhd, by simp⟩
      | succ j =>
        have hj2 : tl[j]? = some i := by simpa using hj
        obtain ⟨r, ev, heq, hr⟩ := hidx j i hj2
        exact ⟨r, ev, heq, by simpa using hr⟩
    · intro e he
      rcases List.mem_append.mp he with he | he
      · exact ⟨hd, _, _, List.mem_cons_self hd tl, hhd, he⟩
      · obtain ⟨i, r, ev, hi, heq, hmem⟩ := hev e he
        exact ⟨i, r, ev, List.mem_cons_of_mem hd hi, heq, hmem⟩

theorem runTrialsOn_events (cfg : EvalConfig) (io : RunEffects) (N : ℕ) (L : List ℕ)
    (rs : List IterationResult) (evs : List Event)
    (h : runTrialsOn cfg io N L = .ok (rs, evs)) :
    ∀ e, e ∈ evs → ∃ i r ev, i ∈ L ∧
      runSingleIteration cfg (io.trial i) (mkCtx cfg N i) = .ok (r, ev) ∧ e ∈ ev := by
  induction L generalizing rs evs with
  | nil =>
    simp only [runTrialsOn] at h
    cases h
    intro e he; simp at he
  | cons hd tl ih =>
    simp only [runTrialsOn] at h
    rcases h1 : runSingleIteration cfg (io.trial hd) (mkCtx cfg N hd) with m | p
    · rw [h1] at h; cases h
    · rw [h1] at h
      rcases h2 : runTrialsOn cfg io N tl with m | q
      · rw [h2] at h; cases h
      · rw [h2] at h
        obtain ⟨r0, ev0⟩ := p
        obtain ⟨rs2, evs2⟩ := q
        cases h
        intro e he
        rcases List.mem_append.mp he with he | he
        · exact ⟨hd, r0, ev0, List.mem_cons_self hd tl, h1, he⟩
        · obtain ⟨i, r, ev, hi, heq, hmem⟩ := ih rs2 evs2 h2 e he
          exact ⟨i, r, ev, List.mem_cons_of_mem hd hi, heq, hmem⟩

theorem runClaudeCodeEval_eq_of (cfg : EvalConfig) (io : RunEffects) (N : ℕ)
    (rs : List IterationResult) (evs : List Event)
    (h : runTrialsOn cfg io N (List.range N) = .ok (rs, evs)) :
    runClaudeCodeEval cfg io N =
      .ok ({ evalName := cfg.name, timestamp := io.timestamp,
             success := rs.all (fun r => r.success), duration := io.durationMs,
             iterations := rs,
             aggregateScores := calculateAggregateScores rs,
             tokenUsage := if 0 < (totalTokenUsage rs).inputTokens
               then some (totalTokenUsage rs) else none }, evs) := by
  simp [runClaudeCodeEval, h]

/-! ### Concrete fixtures used by witnesses and counterexamples -/

/-- A minimal configuration: no scorers, no environment variables. -/
def cfgSimple : EvalConfig :=
  { name := "w", prompt := "p", projectDir := ["home", "proj"], timeout := none,
    scorers := [], verbose := false, keepTempDir := false,
    environmentVariables := .noSpec }

/-- Trial effects where every external call succeeds. -/
def okEffects : TrialEffects :=
  { tmpdir := ["tmp"], uuid := "u0", durationMs := 5, copyErr := none,
    isGitRepo := true, gitInitErr := none, gitAddErr := none, gitCommitErr := none,
    envWriteErr := none, agentResult := .ok ("[]", none), diffResult := .ok "" }

/-- Trial effects where the workspace copy throws. -/
def failCopyEffects : TrialEffects :=
  { okEffects with copyErr := some "copy failed", uuid := "u1" }

/-- Run effects: trial 0 has a failing copy, all others succeed. -/
def runFirstFails : RunEffects :=
  { trial := fun i => if i = 0 then failCopyEffects else okEffects,
    timestamp := "t", durationMs := 9 }

/-- Run effects where every trial succeeds. -/
def runAllOk : RunEffects :=
  { trial := fun _ => okEffects, timestamp := "t", durationMs := 9 }

/-! ### Claim C2 -/

/-- C2: for every configuration of `N` trials (whose environment phase — the
only code outside the trial's error-containment boundary — succeeds), the
run produces exactly one `IterationResult` per trial, in canonical
`iterationId` order `0, …, N-1`; a trial whose body fails with a
trial-scoped error gets `success = false` and its error message recorded on
its own result, and changing one trial's effects cannot change any other
trial's result. -/
theorem scheduler_per_trial_results (cfg : EvalConfig) (N : ℕ) (io : RunEffects)
    (henv : ∀ i, i < N → ∃ vs, envPhase cfg (mkCtx cfg N i) = .ok vs) :
    ∃ res evs, runClaudeCodeEval cfg io N = .ok (res, evs) ∧
      res.iterations.length = N ∧
      (∀ i, i < N → ∃ r, res.iterations[i]? = some r ∧ r.iterationId = i) ∧
      (∀ i vs m, i < N → envPhase cfg (mkCtx cfg N i) = .ok vs →
        (trialBody cfg (io.trial i) (trialTempDir (io.trial i)) vs).1 = .error m →
        ∃ r, res.iterations[i]? = some r ∧ r.success = false ∧ r.error = some m) ∧
      (∀ (io2 : RunEffects) (k : ℕ),
        (∀ j, j < N → j ≠ k → io2.trial j = io.trial j) →
        ∃ res2 evs2, runClaudeCodeEval cfg io2 N = .ok (res2, evs2) ∧
          res2.iterations.length = N ∧
          ∀ j, j < N → j ≠ k → res2.iterations[j]? = res.iterations[j]?) := by
  have henvL : ∀ i, i ∈ List.range N → ∃ vs, envPhase cfg (mkCtx cfg N i) = .ok vs :=
    fun i hi => henv i (List.mem_range.mp hi)
  obtain ⟨rs, evs, hrun, hlen, hidx, _⟩ := runTrialsOn_ok cfg io N (List.range N) henvL
  have hEval := runClaudeCodeEval_eq_of cfg io N rs evs hrun
  refine ⟨_, evs, hEval, by simpa using hlen, ?_, ?_, ?_⟩
  · intro i hi
    have hL : (List.range N)[i]? = some i := by
      simp [List.getElem?_range, hi]
    obtain ⟨r, ev, heq, hr⟩ := hidx i i hL
    obtain ⟨vs, hvs⟩ := henv i hi
    rw [runSingleIteration_ok_eq cfg (io.trial i) (mkCtx cfg N i) vs hvs] at heq
    cases heq
    exact ⟨_, hr, finishTrial_iterationId _ _ _ _ _ _⟩
  · intro i vs m hi hvs hberr
    have hL : (List.range N)[i]? = some i := by
      simp [List.getElem?_range, hi]
    obtain ⟨r, ev, heq, hr⟩ := hidx i i hL
    rw [runSingleIteration_ok_eq cfg (io.trial i) (mkCtx cfg N i) vs hvs] at heq
    cases heq
    refine ⟨_, hr, ?_, ?_⟩
    · rw [hberr]
      exact (finishTrial_error_fields _ _ _ _ _ _).1
    · rw [hberr]
      exact (finishTrial_error_fields _ _ _ _ _ _).2.1
  · intro io2 k hag
    obtain ⟨rs2, evs2, hrun2, hlen2, hidx2, _⟩ := runTrialsOn_ok cfg io2 N (List.range N) henvL
    have hEval2 := runClaudeCodeEval_eq_of cfg io2 N rs2 evs2 hrun2
    refine ⟨_, evs2, hEval2, by simpa using hlen2, ?_⟩
    intro j hj hne
    have hL : (List.range N)[j]? = some j := by
      simp [List.getElem?_range, hj]
    obtain ⟨r, ev, heq, hr⟩ := hidx j j hL
    obtain ⟨r2, ev2, heq2, hr2⟩ := hidx2 j j hL
    rw [hag j hj hne, heq] at heq2
    cases heq2
    rw [hr, hr2]

/-- Witness for C2 at a concrete two-trial run whose first trial's copy
step fails. -/
theorem scheduler_per_trial_results_witness :
    (∀ i, i < 2 → ∃ vs, envPhase cfgSimple (mkCtx cfgSimple 2 i) = .ok vs) ∧
    (∃ res evs, runClaudeCodeEval cfgSimple runFirstFails 2 = .ok (res, evs) ∧
      res.iterations.length = 2 ∧
      (∀ i, i < 2 → ∃ r, res.iterations[i]? = some r ∧ r.iterationId = i) ∧
      (∀ i vs m, i < 2 → envPhase cfgSimple (mkCtx cfgSimple 2 i) = .ok vs →
        (trialBody cfgSimple (runFirstFails.trial i)
          (trialTempDir (runFirstFails.trial i)) vs).1 = .error m →
        ∃ r, res.iterations[i]? = some r ∧ r.success = false ∧ r.error = some m) ∧
      (∀ (io2 : RunEffects) (k : ℕ),
        (∀ j, j < 2 → j ≠ k → io2.trial j = runFirstFails.trial j) →
        ∃ res2 evs2, runClaudeCodeEval cfgSimple io2 2 = .ok (res2, evs2) ∧
          res2.iterations.length = 2 ∧
          ∀ j, j < 2 → j ≠ k → res2.iterations[j]? = res.iterations[j]?)) :=
  ⟨fun _ _ => ⟨[], rfl⟩,
   scheduler_per_trial_results cfgSimple 2 runFirstFails (fun _ _ => ⟨[], rfl⟩)⟩

/-! ### Claim C10 -/

theorem validate_error_of_bad (vs : EnvRec) (kv : String × EnvValue) (hmem : kv ∈ vs)
    (hbad : ¬ (validEnvName kv.1 = true ∧ kv.2.isStr = true)) :
    ∃ m, validateEnvironmentVariables vs = .error m := by
  induction vs with
  | nil => cases hmem
  | cons hd tl ih =>
    obtain ⟨k, v⟩ := hd
    by_cases hname : validEnvName k = true
    · cases v with
      | str s =>
        rcases List.mem_cons.mp hmem with heq | hmem2
        · exact absurd (by rw [heq]; exact ⟨hname, rfl⟩) hbad
        · obtain ⟨m, hm⟩ := ih hmem2
          exact ⟨m, by simp [validateEnvironmentVariables, hname, hm]⟩
      | nonStr t =>
        have hv : validateEnvironmentVariables ((k, EnvValue.nonStr t) :: tl) =
            .error ("Environment variable \"" ++ k ++ "\" must be a string, got " ++ t) := by
          simp [validateEnvironmentVariables, hname]
        exact ⟨_, hv⟩
    · have hv : validateEnvironmentVariables ((k, v) :: tl) =
          .error ("Invalid environment variable name: \"" ++ k ++ "\". " ++
            "Names must start with letter or underscore and contain only letters, numbers, and underscores.") := by
        simp [validateEnvironmentVariables, hname]
      exact ⟨_, hv⟩

theorem range_split (k N : ℕ) (h : k < N) :
    List.range N = List.range k ++ k :: ((List.range (N - k - 1)).map (fun j => k + (j + 1))) := by
  have h1 : N = k + (N - k) := by omega
  have h2 : N - k = (N - k - 1) + 1 := by omega
  conv_lhs => rw [h1, List.range_add, h2, List.range_succ_eq_map]
  simp [List.map_map, Function.comp]

theorem runTrialsOn_error (cfg : EvalConfig) (io : RunEffects) (N : ℕ)
    (l1 : List ℕ) (k : ℕ) (l2 : List ℕ) (m : String)
    (hok : ∀ j, j ∈ l1 → ∃ vs, envPhase cfg (mkCtx cfg N j) = .ok vs)
    (herr : envPhase cfg (mkCtx cfg N k) = .error m) :
    runTrialsOn cfg io N (l1 ++ k :: l2) = .error m := by
  induction l1 with
  | nil =>
    simp only [List.nil_append, runTrialsOn,
      runSingleIteration_error_eq cfg (io.trial k) (mkCtx cfg N k) m herr]
  | cons hd tl ih =>
    obtain ⟨vs, hvs⟩ := hok hd (List.mem_cons_self hd tl)
    rw [List.cons_append]
    simp only [runTrialsOn,
      runSingleIteration_ok_eq cfg (io.trial hd) (mkCtx cfg N hd) vs hvs,
      ih (fun j hj => hok j (List.mem_cons_of_mem hd hj))]

/-- C10: environment-value generation and validation run before the trial's
error-containment boundary.  (1) An environment-phase error makes the trial
executor itself throw (no failed `IterationResult` is produced); (2) a
throwing generator function surfaces as such an error; (3) so does any
generated variable with a name not matching `/^[A-Z_][A-Z0-9_]*$/i` or a
non-string value; (4) such an error aborts the entire run: the run returns
an exception, not a report. -/
theorem env_errors_escape_trial :
    (∀ (cfg : EvalConfig) (io : TrialEffects) (ctx : EnvGeneratorContext) (m : String),
       envPhase cfg ctx = .error m → runSingleIteration cfg io ctx = .error m) ∧
    (∀ (cfg : EvalConfig) (ctx : EnvGeneratorContext)
       (f : EnvGeneratorContext → Except String EnvRec) (m : String),
       cfg.environmentVariables = .func f → f ctx = .error m → envPhase cfg ctx = .error m) ∧
    (∀ (cfg : EvalConfig) (ctx : EnvGeneratorContext) (vs : EnvRec) (kv : String × EnvValue),
       generateEnvironmentVariables cfg.environmentVariables ctx = .ok vs →
       kv ∈ vs → ¬ (validEnvName kv.1 = true ∧ kv.2.isStr = true) →
       ∃ m, envPhase cfg ctx = .error m) ∧
    (∀ (cfg : EvalConfig) (io : RunEffects) (N k : ℕ) (m : String), k < N →
       (∀ j, j < k → ∃ vs, envPhase cfg (mkCtx cfg N j) = .ok vs) →
       envPhase cfg (mkCtx cfg N k) = .error m →
       runClaudeCodeEval cfg io N = .error m) := by
  refine ⟨?_, ?_, ?_, ?_⟩
  · intro cfg io ctx m h
    exact runSingleIteration_error_eq cfg io ctx m h
  · intro cfg ctx f m hf hm
    simp [envPhase, generateEnvironmentVariables, hf, hm]
  · intro cfg ctx vs kv hgen hmem hbad
    obtain ⟨m, hm⟩ := validate_error_of_bad vs kv hmem hbad
    exact ⟨m, by simp [envPhase, hgen, hm]⟩
  · intro cfg io N k m hk hok herr
    have habort : runTrialsOn cfg io N (List.range N) = .error m := by
      rw [range_split k N hk]
      exact runTrialsOn_error cfg io N (List.range k) k _ m
        (fun j hj => hok j (List.mem_range.mp hj)) herr
    simp [runClaudeCodeEval, habort]

/-- A configuration whose static environment record has an invalid name. -/
def cfgBadEnv : EvalConfig :=
  { cfgSimple with environmentVariables := .static [("BAD-NAME", .str "x")] }

/-- The validation error produced for `BAD-NAME`. -/
def badEnvMsg : String :=
  "Invalid environment variable name: \"BAD-NAME\". " ++
    "Names must start with letter or underscore and contain only letters, numbers, and underscores."

/-- Witness for C10: a static record with the name `BAD-NAME` makes the
environment phase throw, and the one-trial run aborts with that
exception instead of producing a report. -/
theorem env_errors_escape_trial_witness :
    envPhase cfgBadEnv (mkCtx cfgBadEnv 1 0) = .error badEnvMsg ∧
    runClaudeCodeEval cfgBadEnv runAllOk 1 = .error badEnvMsg := by
  have h : envPhase cfgBadEnv (mkCtx cfgBadEnv 1 0) = .error badEnvMsg := by rfl
  exact ⟨h, env_errors_escape_trial.2.2.2 cfgBadEnv runAllOk 1 0 badEnvMsg
    (by norm_num) (fun j hj => absurd hj (Nat.not_lt_zero j)) h⟩

/-! ### More path lemmas -/

theorem isUnder_trans (a b c : Path) (h1 : isUnder a b = true) (h2 : isUnder b c = true) :
    isUnder a c = true := by
  induction b generalizing a c with
  | nil =>
    cases a with
    | nil => rfl
    | cons x xs => simp [isUnder] at h1
  | cons y ys ih =>
    cases a with
    | nil => rfl
    | cons x xs =>
      cases c with
      | nil => simp [isUnder] at h2
      | cons z zs =>
        simp only [isUnder, Bool.and_eq_true] at h1 h2 ⊢
        have hxy : x = y := by simpa using h1.1
        have hyz : y = z := by simpa using h2.1
        exact ⟨by simp [hxy, hyz], ih xs zs h1.2 h2.2⟩

theorem isUnder_comparable (a b c : Path) (h1 : isUnder a c = true)
    (h2 : isUnder b c = true) : isUnder a b = true ∨ isUnder b a = true := by
  induction c generalizing a b with
  | nil =>
    cases a with
    | nil => exact Or.inl rfl
    | cons x xs => simp [isUnder] at h1
  | cons z zs ih =>
    cases a with
    | nil => exact Or.inl rfl
    | cons x xs =>
      cases b with
      | nil => exact Or.inr rfl
      | cons y ys =>
        simp only [isUnder, Bool.and_eq_true] at h1 h2
        have hx : x = z := by simpa using h1.1
        have hy : y = z := by simpa using h2.1
        rcases ih xs ys h1.2 h2.2 with h | h
        · exact Or.inl (by simp [isUnder, hx, hy, h])
        · exact Or.inr (by simp [isUnder, hx, hy, h])

/-! ### Event-trace lemmas -/

theorem gitPhase_events_mem (io : TrialEffects) (td : Path) (e : Event)
    (he : e ∈ (gitPhase io td).2) :
    e = .gitInit td ∨ e = .gitAdd td ∨ e = .gitCommit td := by
  by_cases hg : io.isGitRepo
  · simp [gitPhase, hg] at he
  · rcases h1 : io.gitInitErr with _ | m1 <;>
      rcases h2 : io.gitAddErr with _ | m2 <;>
      rcases h3 : io.gitCommitErr with _ | m3 <;>
      simp [gitPhase, hg, h1, h2, h3] at he <;>
      tauto

theorem envFilePhase_events_mem (io : TrialEffects) (td : Path) (vs : EnvRec) (e : Event)
    (he : e ∈ (envFilePhase io td vs).2) :
    e = .fsWriteFile (td ++ [".env"]) (envFileContent vs) := by
  by_cases hv : vs.isEmpty
  · simp [envFilePhase, hv] at he
  · rcases h1 : io.envWriteErr with _ | m <;>
      simp [envFilePhase, hv, h1] at he <;>
      tauto

theorem scorerLoop_events_mem (scorers : List Scorer) (ctx : ScorerContext)
    (acc : List (String × ScorerResult)) (e : Event)
    (he : e ∈ (scorerLoop scorers ctx acc).2) :
    ∃ nm, e = .scorerRun nm ctx.workingDir := by
  induction scorers generalizing acc with
  | nil => simp [scorerLoop] at he
  | cons s rest ih =>
    rcases hf : s.fn ctx with m | r
    · simp [scorerLoop, hf] at he
      exact ⟨s.name, he⟩
    · simp [scorerLoop, hf] at he
      rcases he with rfl | he
      · exact ⟨s.name, rfl⟩
      · exact ih (recSet acc s.name r) he

theorem agentAndScore_events_mem (cfg : EvalConfig) (io : TrialEffects) (td : Path)
    (vs : EnvRec) (e : Event) (he : e ∈ (agentAndScore cfg io td vs).2) :
    e = .agentInvoke td ∨ e = .gitDiff td ∨ ∃ nm, e = .scorerRun nm td := by
  rcases ha : io.agentResult with m | p
  · simp [agentAndScore, ha] at he
    tauto
  · obtain ⟨out, usage⟩ := p
    rcases hd : io.diffResult with m | diff
    · simp [agentAndScore, ha, hd] at he
      tauto
    · rcases hs : (scorerLoop cfg.scorers (scorerCtxFor td diff out vs) []).1 with m | sc <;>
      · simp [agentAndScore, ha, hd, hs] at he
        rcases he with rfl | rfl | he
        · exact Or.inl rfl
        · exact Or.inr (Or.inl rfl)
        · exact Or.inr (Or.inr ((scorerLoop_events_mem _ _ _ e he).imp
            (fun nm hnm => by simpa [scorerCtxFor] using hnm)))

theorem trialBody_events_under (cfg : EvalConfig) (io : TrialEffects) (td : Path)
    (vs : EnvRec) (e : Event) (he : e ∈ (trialBody cfg io td vs).2) (p : Path)
    (hp : Event.writeRoot e = some p) : isUnder td p = true := by
  have hCopy : ∀ p2 : Path, Event.writeRoot (Event.fsCopy cfg.projectDir td) = some p2 →
      isUnder td p2 = true := by
    intro p2 h2
    simp only [Event.writeRoot, Option.some.injEq] at h2
    subst h2
    exact isUnder_refl td
  have hGit : ∀ e2, e2 ∈ (gitPhase io td).2 → ∀ p2, Event.writeRoot e2 = some p2 →
      isUnder td p2 = true := by
    intro e2 he2 p2 h2
    rcases gitPhase_events_mem io td e2 he2 with rfl | rfl | rfl <;>
      (simp only [Event.writeRoot, Option.some.injEq] at h2; subst h2; exact isUnder_refl td)
  have hEnvW : ∀ e2, e2 ∈ (envFilePhase io td vs).2 → ∀ p2, Event.writeRoot e2 = some p2 →
      isUnder td p2 = true := by
    intro e2 he2 p2 h2
    rw [envFilePhase_events_mem io td vs e2 he2] at h2
    simp only [Event.writeRoot, Option.some.injEq] at h2
    subst h2
    exact isUnder_append td [".env"]
  have hCore : ∀ e2, e2 ∈ (agentAndScore cfg io td vs).2 → ∀ p2, Event.writeRoot e2 = some p2 →
      isUnder td p2 = true := by
    intro e2 he2 p2 h2
    rcases agentAndScore_events_mem cfg io td vs e2 he2 with rfl | rfl | ⟨nm, rfl⟩
    · simp only [Event.writeRoot, Option.some.injEq] at h2
      subst h2
      exact isUnder_refl td
    · simp [Event.writeRoot] at h2
    · simp only [Event.writeRoot, Option.some.injEq] at h2
      subst h2
      exact isUnder_refl td
  have hSet : ∀ e2, e2 ∈ vs.map (fun kv => Event.procEnvSet kv.1 kv.2) →
      ∀ p2, Event.writeRoot e2 = some p2 → isUnder td p2 = true := by
    intro e2 he2 p2 h2
    obtain ⟨kv, _, rfl⟩ := List.mem_map.mp he2
    simp [Event.writeRoot] at h2
  rcases hc : io.copyErr with _ | m
  · rcases hg : (gitPhase io td).1 with m | u
    · simp only [trialBody, hc, hg] at he
      simp only [List.mem_append, List.mem_singleton] at he
      rcases he with rfl | he
      · exact hCopy p hp
      · exact hGit e he p hp
    · rcases hw : (envFilePhase io td vs).1 with m | u2
      · simp only [trialBody, hc, hg, hw] at he
        simp only [List.mem_append, List.mem_singleton] at he
        rcases he with (rfl | he) | he
        · exact hCopy p hp
        · exact hGit e he p hp
        · exact hEnvW e he p hp
      · simp only [trialBody, hc, hg, hw] at he
        simp only [List.mem_append, List.mem_singleton] at he
        rcases he with ((((rfl | he) | he) | he) | he) | rfl
        · exact hCopy p hp
        · exact hGit e he p hp
        · exact hEnvW e he p hp
        · exact hSet e he p hp
        · exact hCore e he p hp
        · simp [Event.writeRoot] at hp
  · simp only [trialBody, hc] at he
    rw [List.mem_singleton] at he
    subst he
    exact hCopy p hp

theorem runSingleIteration_events_under (cfg : EvalConfig) (t : TrialEffects)
    (ctx : EnvGeneratorContext) (r : IterationResult) (ev : List Event)
    (h : runSingleIteration cfg t ctx = .ok (r, ev)) :
    ∀ e ∈ ev, ∀ p, Event.writeRoot e = some p → isUnder (trialTempDir t) p = true := by
  rcases hp : envPhase cfg ctx with m | vs
  · rw [runSingleIteration_error_eq cfg t ctx m hp] at h
    cases h
  · rw [runSingleIteration_ok_eq cfg t ctx vs hp] at h
    obtain ⟨-, h2⟩ := Prod.mk.injEq .. ▸ (Except.ok.injEq .. ▸ h :
      (finishTrial cfg t ctx (trialTempDir t) vs (trialBody cfg t (trialTempDir t) vs).1,
        (trialBody cfg t (trialTempDir t) vs).2 ++
          (if cfg.keepTempDir then [] else [Event.fsRemove (trialTempDir t)])) = (r, ev))
    intro e he p hwr
    rw [← h2] at he
    rcases List.mem_append.mp he with he | he
    · exact trialBody_events_under cfg t (trialTempDir t) vs e he p hwr
    · by_cases hk : cfg.keepTempDir
      · simp [hk] at he
      · rw [if_neg hk] at he
        rw [List.mem_singleton] at he
        subst he
        simp only [Event.writeRoot, Option.some.injEq] at hwr
        subst hwr
        exact isUnder_refl _

/-! ### Claim C5 -/

/-- C5: provided the source project directory is disjoint from each trial's
OS temp root (neither contains the other), no event of the run writes into
the source project's subtree (nor into any ancestor of it): provisioning,
git baseline, the `.env` write, the agent invocation, scoring and cleanup
are all directed at paths under the trial's own temp directory. -/
theorem source_dir_never_mutated (cfg : EvalConfig) (io : RunEffects) (N : ℕ)
    (hdisj : ∀ i, i < N → isUnder (io.trial i).tmpdir cfg.projectDir = false ∧
                           isUnder cfg.projectDir (io.trial i).tmpdir = false)
    (res : EvalResult) (evs : List Event)
    (hrun : runClaudeCodeEval cfg io N = .ok (res, evs)) :
    ∀ e ∈ evs, ∀ p, Event.writeRoot e = some p →
      isUnder cfg.projectDir p = false ∧ isUnder p cfg.projectDir = false := by
  rcases hr : runTrialsOn cfg io N (List.range N) with m | pr
  · simp [runClaudeCodeEval, hr] at hrun
  · obtain ⟨rs, evs0⟩ := pr
    have hevs : evs0 = evs := by
      simp only [runClaudeCodeEval, hr] at hrun
      exact (Prod.mk.injEq .. ▸ (Except.ok.injEq .. ▸ hrun)).2
    subst hevs
    intro e he p hwr
    obtain ⟨i, r, ev, hiL, heq, hmem⟩ := runTrialsOn_events cfg io N (List.range N) rs evs0 hr e he
    have hi : i < N := List.mem_range.mp hiL
    have hu : isUnder (trialTempDir (io.trial i)) p = true :=
      runSingleIteration_events_under cfg (io.trial i) (mkCtx cfg N i) r ev heq e hmem p hwr
    obtain ⟨h1, h2⟩ := hdisj i hi
    constructor
    · by_contra hcon
      have hproj : isUnder cfg.projectDir p = true := by
        cases hq : isUnder cfg.projectDir p
        · exact absurd hq hcon
        · rfl
      rcases isUnder_comparable cfg.projectDir (trialTempDir (io.trial i)) p hproj hu with h | h
      · rcases isUnder_append_split cfg.projectDir (io.trial i).tmpdir _ h with h3 | h3
        · exact absurd h3 (by simp [h2])
        · exact absurd h3 (by simp [h1])
      · have h3 := isUnder_append_left (io.trial i).tmpdir _ cfg.projectDir h
        exact absurd h3 (by simp [h1])
    · by_contra hcon
      have hproj : isUnder p cfg.projectDir = true := by
        cases hq : isUnder p cfg.projectDir
        · exact absurd hq hcon
        · rfl
      have h3 := isUnder_trans (trialTempDir (io.trial i)) p cfg.projectDir hu hproj
      have h4 := isUnder_append_left (io.trial i).tmpdir _ cfg.projectDir h3
      exact absurd h4 (by simp [h1])

/-- Witness for C5: the one-trial all-success run on a project outside the
temp root only writes under the trial's temp directory, never into the
project. -/
theorem source_dir_never_mutated_witness :
    ∃ res evs, runClaudeCodeEval cfgSimple runAllOk 1 = .ok (res, evs) ∧
      ∀ e ∈ evs, ∀ p, Event.writeRoot e = some p →
        isUnder cfgSimple.projectDir p = false ∧ isUnder p cfgSimple.projectDir = false := by
  obtain ⟨rs, evs, hrun, -, -, -⟩ :=
    runTrialsOn_ok cfgSimple runAllOk 1 (List.range 1) (fun i _ => ⟨[], rfl⟩)
  have hEval := runClaudeCodeEval_eq_of cfgSimple runAllOk 1 rs evs hrun
  refine ⟨_, evs, hEval, ?_⟩
  intro e he p hwr
  refine source_dir_never_mutated cfgSimple runAllOk 1 ?_ _ evs hEval e he p hwr
  intro i hi
  have : i = 0 := by omega
  subst this
  exact ⟨by decide, by decide⟩

/-! ### Claim C1 -/

/-- A configuration with one static environment variable and no scorers. -/
def cfgEnvDemo : EvalConfig :=
  { cfgSimple with environmentVariables := .static [("API_KEY", EnvValue.str "secret-value")] }

/-- A concrete iteration context. -/
def ctxDemo : EnvGeneratorContext :=
  { iteration := 0, evalName := "w", totalIterations := some 1 }

/-- Counterexample to C1 as stated: `runSingleIteration` does write the
trial's resolved environment values into the process-wide environment table
— the step `Object.assign(process.env, envVars)` emits a `procEnvSet` event
carrying the trial's value, so "the engine never writes the trial's
resolved environment values into any process-wide mutable location" fails
at this concrete input. -/
theorem procEnvWrite_counterexample :
    ¬ (∀ r ev, runSingleIteration cfgEnvDemo okEffects ctxDemo = .ok (r, ev) →
        ∀ e ∈ ev, e.isProcEnvSet = false) := by
  intro hclaim
  have hrun := runSingleIteration_ok_eq cfgEnvDemo okEffects ctxDemo
    [("API_KEY", EnvValue.str "secret-value")] rfl
  have hmem : Event.procEnvSet "API_KEY" (EnvValue.str "secret-value") ∈
      (trialBody cfgEnvDemo okEffects (trialTempDir okEffects)
        [("API_KEY", EnvValue.str "secret-value")]).2 ++
      (if cfgEnvDemo.keepTempDir then [] else [Event.fsRemove (trialTempDir okEffects)]) := by
    decide
  have := hclaim _ _ hrun _ hmem
  simp [Event.isProcEnvSet] at this

/-- C1 amended: environment values are materialized into the trial's
workspace as a project-local `.env` declaration file, but in addition the
engine assigns them into the process-wide environment table
(`Object.assign(process.env, envVars)`) before the agent invocation and
restores the original table afterwards — so the trial's values do
transit through globally shared mutable state. -/
theorem env_materialization_amended (cfg : EvalConfig) (io : TrialEffects)
    (ctx : EnvGeneratorContext) (vs : EnvRec)
    (henv : envPhase cfg ctx = .ok vs)
    (hcopy : io.copyErr = none)
    (hgit : (gitPhase io (trialTempDir io)).1 = .ok ())
    (hw : (envFilePhase io (trialTempDir io) vs).1 = .ok ()) :
    ∃ r ev, runSingleIteration cfg io ctx = .ok (r, ev) ∧
      (∀ kv ∈ vs, Event.procEnvSet kv.1 kv.2 ∈ ev) ∧
      Event.procEnvRestore ∈ ev ∧
      (vs ≠ [] → Event.fsWriteFile (trialTempDir io ++ [".env"]) (envFileContent vs) ∈ ev) := by
  refine ⟨_, _, runSingleIteration_ok_eq cfg io ctx vs henv, ?_, ?_, ?_⟩
  · intro kv hkv
    apply List.mem_append_left
    simp only [trialBody, hcopy, hgit, hw]
    refine List.mem_append_left _ ?_
    refine List.mem_append_left _ ?_
    exact List.mem_append_right _ (List.mem_map.mpr ⟨kv, hkv, rfl⟩)
  · apply List.mem_append_left
    simp only [trialBody, hcopy, hgit, hw]
    exact List.mem_append_right _ (List.mem_singleton.mpr rfl)
  · intro hvne
    apply List.mem_append_left
    simp only [trialBody, hcopy, hgit, hw]
    refine List.mem_append_left _ ?_
    refine List.mem_append_left _ ?_
    refine List.mem_append_left _ ?_
    refine List.mem_append_right _ ?_
    have hne : vs.isEmpty = false := by
      cases vs
      · exact absurd rfl hvne
      · rfl
    rcases hwe : io.envWriteErr with _ | m
    · simp [envFilePhase, hne, hwe]
    · rw [envFilePhase, if_neg (by simp [hne])] at hw
      rw [hwe] at hw
      cases hw

/-- Witness for C1's amended theorem at the concrete one-variable
configuration. -/
theorem env_materialization_amended_witness :
    (envPhase cfgEnvDemo ctxDemo = .ok [("API_KEY", EnvValue.str "secret-value")] ∧
      okEffects.copyErr = none ∧
      (gitPhase okEffects (trialTempDir okEffects)).1 = .ok () ∧
      (envFilePhase okEffects (trialTempDir okEffects)
        [("API_KEY", EnvValue.str "secret-value")]).1 = .ok ()) ∧
    (∃ r ev, runSingleIteration cfgEnvDemo okEffects ctxDemo = .ok (r, ev) ∧
      (∀ kv ∈ [("API_KEY", EnvValue.str "secret-value")],
        Event.procEnvSet kv.1 kv.2 ∈ ev) ∧
      Event.procEnvRestore ∈ ev ∧
      ([("API_KEY", EnvValue.str "secret-value")] ≠ ([] : EnvRec) →
        Event.fsWriteFile (trialTempDir okEffects ++ [".env"])
          (envFileContent [("API_KEY", EnvValue.str "secret-value")]) ∈ ev)) :=
  ⟨⟨rfl, rfl, rfl, rfl⟩,
   env_materialization_amended cfgEnvDemo okEffects ctxDemo
     [("API_KEY", EnvValue.str "secret-value")] rfl rfl rfl rfl⟩

/-! ### Claim C3 -/

/-- From `src/types.ts` / `src/scorers/factories.ts`: options for the
`execCommand` utility injected into the scorer context. -/
structure ExecCommandOptions where
  command : String
  args : List String
  timeout : Option ℕ
  successMessage : Option String
  failureMessage : Option String

/-- From `src/scorers/factories.ts` (`buildExecCommand`): run the command
(with the given outcome — `some msg` means the `execa` call threw) and
convert the outcome into a `ScorerResult`; a failing command is caught
inside this utility and becomes `{score: 0, reason: <message>}`. -/
def buildExecCommandResult (cmdErr : Option String) (o : ExecCommandOptions) : ScorerResult :=
  match cmdErr with
  | none =>
    { score := 1,
      reason := o.successMessage.getD
        (o.command ++ " " ++ String.intercalate " " o.args ++ " passed") }
  | some msg =>
    { score := 0,
      reason :=
        match o.failureMessage with
        | some f => f ++ ": " ++ msg
        | none => o.command ++ " " ++ String.intercalate " " o.args ++ " failed: " ++ msg }

/-- Whether the event is a scorer invocation. -/
def Event.isScorerRun : Event → Bool
  | .scorerRun _ _ => true
  | _ => false

theorem scorerLoop_all_ok (scorers : List Scorer) (ctx : ScorerContext)
    (acc : List (String × ScorerResult))
    (hok : ∀ s ∈ scorers, ∃ rr, s.fn ctx = .ok rr) :
    ∃ scores, (scorerLoop scorers ctx acc).1 = .ok scores ∧
      (∀ k2, (∀ s ∈ scorers, ¬ s.name = k2) → recGet? scores k2 = recGet? acc k2) := by
  induction scorers generalizing acc with
  | nil => exact ⟨acc, rfl, fun k2 _ => rfl⟩
  | cons s0 rest ih =>
    obtain ⟨rr0, hr0⟩ := hok s0 (List.mem_cons_self s0 rest)
    obtain ⟨scores, h1, h2⟩ :=
      ih (recSet acc s0.name rr0) (fun s hs => hok s (List.mem_cons_of_mem s0 hs))
    refine ⟨scores, by simp [scorerLoop, hr0, h1], ?_⟩
    intro k2 hk2
    rw [h2 k2 (fun s hs => hk2 s (List.mem_cons_of_mem s0 hs)),
      recGet_recSet_ne acc s0.name k2 rr0 (hk2 s0 (List.mem_cons_self s0 rest))]

theorem scorerLoop_lookup (scorers : List Scorer) (ctx : ScorerContext)
    (acc : List (String × ScorerResult)) (s : Scorer) (hmem : s ∈ scorers)
    (hnd : (scorers.map Scorer.name).Nodup)
    (hok : ∀ s2 ∈ scorers, ∃ rr, s2.fn ctx = .ok rr) (rr : ScorerResult)
    (hr : s.fn ctx = .ok rr) :
    ∃ scores, (scorerLoop scorers ctx acc).1 = .ok scores ∧
      recGet? scores s.name = some rr := by
  induction scorers generalizing acc with
  | nil => cases hmem
  | cons s0 rest ih =>
    rcases List.mem_cons.mp hmem with rfl | hmem2
    · obtain ⟨hhead, htail⟩ :
          (∀ x ∈ rest, ¬ x.name = s.name) ∧ (rest.map Scorer.name).Nodup := by
        simpa using hnd
      obtain ⟨scores, h1, h2⟩ := scorerLoop_all_ok rest ctx (recSet acc s.name rr)
        (fun s2 hs2 => hok s2 (List.mem_cons_of_mem s hs2))
      refine ⟨scores, by simp [scorerLoop, hr, h1], ?_⟩
      rw [h2 s.name hhead, recGet_recSet_self]
    · obtain ⟨hhead, htail⟩ :
          (∀ x ∈ rest, ¬ x.name = s0.name) ∧ (rest.map Scorer.name).Nodup := by
        simpa using hnd
      obtain ⟨rr0, hr0⟩ := hok s0 (List.mem_cons_self s0 rest)
      obtain ⟨scores, h1, h2⟩ := ih (recSet acc s0.name rr0) hmem2 htail
        (fun s2 hs2 => hok s2 (List.mem_cons_of_mem s0 hs2))
      exact ⟨scores, by simp [scorerLoop, hr0, h1], h2⟩

theorem scorerLoop_throw (pre : List Scorer) (t : Scorer) (post : List Scorer)
    (ctx : ScorerContext) (acc : List (String × ScorerResult)) (m : String)
    (hok : ∀ s ∈ pre, ∃ rr, s.fn ctx = .ok rr) (ht : t.fn ctx = .error m) :
    (scorerLoop (pre ++ t :: post) ctx acc).1 = .error m ∧
    (scorerLoop (pre ++ t :: post) ctx acc).2 =
      pre.map (fun s => Event.scorerRun s.name ctx.workingDir) ++
        [Event.scorerRun t.name ctx.workingDir] := by
  induction pre generalizing acc with
  | nil => simp [scorerLoop, ht]
  | cons s0 rest ih =>
    obtain ⟨rr0, hr0⟩ := hok s0 (List.mem_cons_self s0 rest)
    obtain ⟨h1, h2⟩ := ih (recSet acc s0.name rr0)
      (fun s hs => hok s (List.mem_cons_of_mem s0 hs))
    constructor
    · simpa [scorerLoop, hr0] using h1
    · simp [scorerLoop, hr0, h2]

theorem filter_scorerRun_git (io : TrialEffects) (td : Path) :
    (gitPhase io td).2.filter Event.isScorerRun = [] := by
  rw [List.filter_eq_nil_iff]
  intro e he
  rcases gitPhase_events_mem io td e he with rfl | rfl | rfl <;> simp [Event.isScorerRun]

theorem filter_scorerRun_envFile (io : TrialEffects) (td : Path) (vs : EnvRec) :
    (envFilePhase io td vs).2.filter Event.isScorerRun = [] := by
  rw [List.filter_eq_nil_iff]
  intro e he
  rw [envFilePhase_events_mem io td vs e he]
  simp [Event.isScorerRun]

theorem filter_scorerRun_envSet (vs : EnvRec) :
    (vs.map (fun kv => Event.procEnvSet kv.1 kv.2)).filter Event.isScorerRun = [] := by
  rw [List.filter_eq_nil_iff]
  intro e he
  obtain ⟨kv, -, rfl⟩ := List.mem_map.mp he
  simp [Event.isScorerRun]

/-- C3 amended: in a trial that reaches the scoring step, (1) a scorer whose
invoked command fails (through the `execCommand` utility, which catches the
command error itself) yields `{score: 0, reason: <message>}` for that one
scorer; (2) when every scorer's function returns normally, the trial
completes with no error and each scorer's own result recorded under its
name; but (3) a scorer whose function throws aborts the trial's scoring:
the exception is caught at the trial level, the trial's result has
`success = false`, an empty score record (earlier scorers' results are
discarded) and the thrown message as its `error`, and the scorers after the
throwing one are never invoked.  The failure is still contained to that one
trial. -/
theorem scorer_failure_handling_amended (cfg : EvalConfig) (io : TrialEffects)
    (ctx : EnvGeneratorContext) (vs : EnvRec)
    (henv : envPhase cfg ctx = .ok vs)
    (hcopy : io.copyErr = none)
    (hgit : (gitPhase io (trialTempDir io)).1 = .ok ())
    (hw : (envFilePhase io (trialTempDir io) vs).1 = .ok ())
    (out : String) (usage : Option TokenUsage) (ha : io.agentResult = .ok (out, usage))
    (diff : String) (hd : io.diffResult = .ok diff) :
    (∀ (msg : String) (o : ExecCommandOptions),
       (buildExecCommandResult (some msg) o).score = 0) ∧
    ((∀ s ∈ cfg.scorers, ∃ rr,
        s.fn (scorerCtxFor (trialTempDir io) diff out vs) = .ok rr) →
      (cfg.scorers.map Scorer.name).Nodup →
      ∃ r ev, runSingleIteration cfg io ctx = .ok (r, ev) ∧ r.error = none ∧
        ∀ s ∈ cfg.scorers, ∀ rr,
          s.fn (scorerCtxFor (trialTempDir io) diff out vs) = .ok rr →
          recGet? r.scores s.name = some rr) ∧
    (∀ (pre : List Scorer) (t : Scorer) (post : List Scorer) (m : String),
      cfg.scorers = pre ++ t :: post →
      (∀ s ∈ pre, ∃ rr, s.fn (scorerCtxFor (trialTempDir io) diff out vs) = .ok rr) →
      t.fn (scorerCtxFor (trialTempDir io) diff out vs) = .error m →
      ∃ r ev, runSingleIteration cfg io ctx = .ok (r, ev) ∧
        r.success = false ∧ r.error = some m ∧ r.scores = [] ∧
        ev.filter Event.isScorerRun =
          (pre ++ [t]).map (fun s => Event.scorerRun s.name (trialTempDir io))) := by
  refine ⟨fun msg o => rfl, ?_, ?_⟩
  · intro hok hnd
    obtain ⟨scores, hloop, -⟩ :=
      scorerLoop_all_ok cfg.scorers (scorerCtxFor (trialTempDir io) diff out vs) [] hok
    have hbody1 : (trialBody cfg io (trialTempDir io) vs).1 =
        .ok { scores := scores, diff := diff, tokenUsage := usage } := by
      simp [trialBody, hcopy, hgit, hw, agentAndScore, ha, hd, hloop]
    refine ⟨_, _, runSingleIteration_ok_eq cfg io ctx vs henv, ?_, ?_⟩
    · rw [hbody1]
      rfl
    · intro s hs rr hr
      obtain ⟨scores2, hloop2, hget⟩ :=
        scorerLoop_lookup cfg.scorers (scorerCtxFor (trialTempDir io) diff out vs) []
          s hs hnd hok rr hr
      rw [hloop] at hloop2
      cases hloop2
      rw [hbody1]
      exact hget
  · intro pre t post m hsc hokpre ht
    obtain ⟨hl1, hl2⟩ :=
      scorerLoop_throw pre t post (scorerCtxFor (trialTempDir io) diff out vs) [] m hokpre ht
    have hloop1 : (scorerLoop cfg.scorers (scorerCtxFor (trialTempDir io) diff out vs) []).1 =
        .error m := by
      rw [hsc]; exact hl1
    have hloop2 : (scorerLoop cfg.scorers (scorerCtxFor (trialTempDir io) diff out vs) []).2 =
        pre.map (fun s => Event.scorerRun s.name (trialTempDir io)) ++
          [Event.scorerRun t.name (trialTempDir io)] := by
      rw [hsc, hl2]
      simp [scorerCtxFor]
    have hcore : agentAndScore cfg io (trialTempDir io) vs =
        (.error m, [Event.agentInvoke (trialTempDir io), Event.gitDiff (trialTempDir io)] ++
          (scorerLoop cfg.scorers (scorerCtxFor (trialTempDir io) diff out vs) []).2) := by
      simp [agentAndScore, ha, hd, hloop1]
    have hbodyPair : trialBody cfg io (trialTempDir io) vs =
        (.error m,
          [Event.fsCopy cfg.projectDir (trialTempDir io)] ++ (gitPhase io (trialTempDir io)).2 ++
            (envFilePhase io (trialTempDir io) vs).2 ++
            vs.map (fun kv => Event.procEnvSet kv.1 kv.2) ++
            ([Event.agentInvoke (trialTempDir io), Event.gitDiff (trialTempDir io)] ++
              (scorerLoop cfg.scorers (scorerCtxFor (trialTempDir io) diff out vs) []).2) ++
            [Event.procEnvRestore]) := by
      simp only [trialBody, hcopy, hgit, hw, hcore]
    refine ⟨_, _, runSingleIteration_ok_eq cfg io ctx vs henv, ?_, ?_, ?_, ?_⟩
    · rw [show (trialBody cfg io (trialTempDir io) vs).1 = .error m from
        congrArg Prod.fst hbodyPair]
      rfl
    · rw [show (trialBody cfg io (trialTempDir io) vs).1 = .error m from
        congrArg Prod.fst hbodyPair]
      rfl
    · rw [show (trialBody cfg io (trialTempDir io) vs).1 = .error m from
        congrArg Prod.fst hbodyPair]
      rfl
    · rw [List.filter_append, congrArg Prod.snd hbodyPair]
      have e6 : ((scorerLoop cfg.scorers (scorerCtxFor (trialTempDir io) diff out vs) []).2).filter
          Event.isScorerRun =
          pre.map (fun s => Event.scorerRun s.name (trialTempDir io)) ++
            [Event.scorerRun t.name (trialTempDir io)] := by
        rw [hloop2]
        rw [List.filter_eq_self]
        intro e he
        rcases List.mem_append.mp he with he | he
        · obtain ⟨s, -, rfl⟩ := List.mem_map.mp he
          simp [Event.isScorerRun]
        · rw [List.mem_singleton] at he
          subst he
          simp [Event.isScorerRun]
      have e8 : (if cfg.keepTempDir then ([] : List Event)
          else [Event.fsRemove (trialTempDir io)]).filter Event.isScorerRun = [] := by
        by_cases hk : cfg.keepTempDir <;> simp [hk, Event.isScorerRun]
      simp only [List.filter_append, filter_scorerRun_git, filter_scorerRun_envFile,
        filter_scorerRun_envSet, e6, e8]
      simp [Event.isScorerRun, List.map_append]

/-- A scorer that returns a passing score. -/
def scFirst : Scorer := { name := "first", fn := fun _ => .ok { score := 1, reason := "ok" } }

/-- A scorer whose function throws. -/
def scBoom : Scorer := { name := "boom", fn := fun _ => .error "scorer exploded" }

/-- A scorer configured after the throwing one. -/
def scLater : Scorer := { name := "later", fn := fun _ => .ok { score := 1, reason := "ok" } }

/-- A configuration with a passing scorer, then a throwing scorer, then
another scorer. -/
def cfgScorerThrow : EvalConfig := { cfgSimple with scorers := [scFirst, scBoom, scLater] }

/-- Counterexample to C3 as stated: with scorers `[first, boom, later]`
where `boom` throws, the claim demands that `boom`'s failure be converted to
a `{score: 0, reason}` entry for that one scorer only, that `later` still
run and produce a result, and that the trial not be aborted
(`error = none`).  None of that holds: the trial's result has an empty
score record and the thrown message as its error. -/
theorem scorer_throw_counterexample :
    ¬ (∀ r ev, runSingleIteration cfgScorerThrow okEffects ctxDemo = .ok (r, ev) →
        r.error = none ∧
        recGet? r.scores "boom" = some { score := 0, reason := "scorer exploded" } ∧
        (recGet? r.scores "later").isSome = true) := by
  intro hclaim
  have hrun := runSingleIteration_ok_eq cfgScorerThrow okEffects ctxDemo [] rfl
  obtain ⟨h1, -, -⟩ := hclaim _ _ hrun
  have hb : (trialBody cfgScorerThrow okEffects (trialTempDir okEffects) []).1 =
      .error "scorer exploded" := rfl
  rw [hb] at h1
  simp [finishTrial] at h1

/-- The options of a command-based scorer whose command fails. -/
def cmdFailOptions : ExecCommandOptions :=
  { command := "npm", args := ["run", "build"], timeout := none,
    successMessage := some "Build passed", failureMessage := none }

/-- A command-based scorer (built on the `execCommand` utility) whose
command fails: the utility catches the failure, so the scorer function
itself returns normally with a zero score. -/
def scCmdFail : Scorer :=
  { name := "build",
    fn := fun _ => .ok (buildExecCommandResult (some "exit code 1") cmdFailOptions) }

/-- A configuration with a failing-command scorer followed by a passing one. -/
def cfgCmdFail : EvalConfig := { cfgSimple with scorers := [scCmdFail, scFirst] }

/-- Witness for C3's amended theorem at a concrete configuration. -/
theorem scorer_failure_handling_amended_witness :
    (envPhase cfgCmdFail ctxDemo = .ok [] ∧ okEffects.copyErr = none) ∧
    ((∀ (msg : String) (o : ExecCommandOptions),
       (buildExecCommandResult (some msg) o).score = 0) ∧
     ((∀ s ∈ cfgCmdFail.scorers, ∃ rr,
         s.fn (scorerCtxFor (trialTempDir okEffects) "" "[]" []) = .ok rr) →
       (cfgCmdFail.scorers.map Scorer.name).Nodup →
       ∃ r ev, runSingleIteration cfgCmdFail okEffects ctxDemo = .ok (r, ev) ∧ r.error = none ∧
         ∀ s ∈ cfgCmdFail.scorers, ∀ rr,
           s.fn (scorerCtxFor (trialTempDir okEffects) "" "[]" []) = .ok rr →
           recGet? r.scores s.name = some rr) ∧
     (∀ (pre : List Scorer) (t : Scorer) (post : List Scorer) (m : String),
       cfgCmdFail.scorers = pre ++ t :: post →
       (∀ s ∈ pre, ∃ rr, s.fn (scorerCtxFor (trialTempDir okEffects) "" "[]" []) = .ok rr) →
       t.fn (scorerCtxFor (trialTempDir okEffects) "" "[]" []) = .error m →
       ∃ r ev, runSingleIteration cfgCmdFail okEffects ctxDemo = .ok (r, ev) ∧
         r.success = false ∧ r.error = some m ∧ r.scores = [] ∧
         ev.filter Event.isScorerRun =
           (pre ++ [t]).map (fun s => Event.scorerRun s.name (trialTempDir okEffects)))) :=
  ⟨⟨rfl, rfl⟩,
   scorer_failure_handling_amended cfgCmdFail okEffects ctxDemo []
     rfl rfl rfl rfl "[]" none rfl "" rfl⟩

/-! ### Claim C6 -/

theorem recGet_isSome_mem_keys {α : Type} (l : List (String × α)) (S : String) (v : α)
    (h : recGet? l S = some v) : S ∈ l.map (fun kv => kv.1) := by
  induction l with
  | nil => simp [recGet?, List.find?] at h
  | cons kv rest ih =>
    rw [recGet_cons] at h
    by_cases hk : kv.1 = S
    · rw [List.map_cons, hk]
      exact List.mem_cons_self S _
    · rw [if_neg (by simpa using hk)] at h
      exact List.mem_cons_of_mem _ (ih h)

theorem reportedScores_ne_nil (results : List IterationResult) (S : String)
    (h : reportedScores results S ≠ []) :
    ∃ r ∈ results, ∃ v, recGet? r.scores S = some v := by
  induction results with
  | nil => simp [reportedScores] at h
  | cons r rs ih =>
    rcases hr : recGet? r.scores S with - | v
    · have h2 : reportedScores rs S ≠ [] := by
        simpa [reportedScores, List.filterMap_cons, hr] using h
      obtain ⟨r2, hr2, v, hv⟩ := ih h2
      exact ⟨r2, List.mem_cons_of_mem _ hr2, v, hv⟩
    · exact ⟨r, List.mem_cons_self r rs, v, hr⟩

theorem aggStep_fold_preserve (results : List IterationResult) (names : List String)
    (acc : List (String × AggregateScore)) (S : String) (hS : S ∉ names) :
    recGet? (names.foldl (aggStep results) acc) S = recGet? acc S := by
  induction names generalizing acc with
  | nil => rfl
  | cons n ns ih =>
    rw [List.foldl_cons]
    have hSn : ¬ n = S := fun h => hS (h ▸ List.mem_cons_self n ns)
    have hSns : S ∉ ns := fun h => hS (List.mem_cons_of_mem n h)
    rcases hrep : reportedScores results n with - | ⟨s, rest⟩
    · rw [show aggStep results acc n = acc from by simp [aggStep, hrep]]
      exact ih acc hSns
    · rw [show aggStep results acc n = recSet acc n (aggForScores s rest) from by
        simp [aggStep, hrep]]
      rw [ih _ hSns, recGet_recSet_ne acc n S _ hSn]

theorem aggStep_fold_get (results : List IterationResult) (names : List String)
    (acc : List (String × AggregateScore)) (S : String) (hmem : S ∈ names)
    (hnd : names.Nodup) (s : ℚ) (rest : List ℚ)
    (hrep : reportedScores results S = s :: rest) :
    recGet? (names.foldl (aggStep results) acc) S = some (aggForScores s rest) := by
  induction names generalizing acc with
  | nil => cases hmem
  | cons n ns ih =>
    rw [List.foldl_cons]
    rcases List.mem_cons.mp hmem with rfl | hmem2
    · have hnin : S ∉ ns := (List.nodup_cons.mp hnd).1
      rw [show aggStep results acc S = recSet acc S (aggForScores s rest) from by
        simp [aggStep, hrep]]
      rw [aggStep_fold_preserve results ns _ S hnin, recGet_recSet_self]
    · exact ih _ hmem2 (List.nodup_cons.mp hnd).2

theorem calcAgg_get (results : List IterationResult) (S : String)
    (hS : ¬ S = "_overall") (s : ℚ) (rest : List ℚ)
    (hrep : reportedScores results S = s :: rest) :
    recGet? (calculateAggregateScores results) S = some (aggForScores s rest) := by
  obtain ⟨r, hrmem, v, hv⟩ := reportedScores_ne_nil results S (by rw [hrep]; simp)
  have hmemflat : S ∈ results.flatMap (fun r => r.scores.map (fun kv => kv.1)) :=
    List.mem_flatMap.mpr ⟨r, hrmem, recGet_isSome_mem_keys r.scores S v hv⟩
  have hmem := (mem_dedupFirst _ S).mpr hmemflat
  have hnd := dedupFirst_nodup (results.flatMap (fun r => r.scores.map (fun kv => kv.1)))
  simp only [calculateAggregateScores]
  rw [recGet_recSet_ne _ "_overall" S _ (fun h => hS h.symm)]
  exact aggStep_fold_get results _ [] S hmem hnd s rest hrep

/-- C6: for a scorer name `S` (other than the synthetic `_overall`)
reported by at least one trial, the aggregate entry for `S` equals the
statistics block computed from exactly the raw scores of the trials that
reported `S` (so two result lists with the same reported scores for `S`
get the same entry), and its `passRate` is the number of trials whose `S`
score is `≥ 1` divided by the number of trials reporting `S`. -/
theorem aggregate_per_scorer_stats (results : List IterationResult) (S : String)
    (hS : S ≠ "_overall") (s : ℚ) (rest : List ℚ)
    (hrep : reportedScores results S = s :: rest) :
    recGet? (calculateAggregateScores results) S = some (aggForScores s rest) ∧
    (aggForScores s rest).passRate =
      ((results.filter (fun r =>
          ((recGet? r.scores S).map (fun sr => decide (1 ≤ sr.score))).getD false)).length : ℚ) /
      ((results.filter (fun r => (recGet? r.scores S).isSome)).length : ℚ) ∧
    (∀ results2 : List IterationResult, reportedScores results2 S = s :: rest →
      recGet? (calculateAggregateScores results2) S = some (aggForScores s rest)) := by
  refine ⟨calcAgg_get results S hS s rest hrep, ?_,
    fun results2 hrep2 => calcAgg_get results2 S hS s rest hrep2⟩
  have hnum : ((s :: rest).filter (fun x => decide (1 ≤ x))).length =
      (results.filter (fun r =>
        ((recGet? r.scores S).map (fun sr => decide (1 ≤ sr.score))).getD false)).length := by
    rw [← hrep, reportedScores,
      length_filter_filterMap (fun r => (recGet? r.scores S).map (fun sr => sr.score))
        (fun x => decide (1 ≤ x)) results]
    apply congrArg
    apply List.filter_congr
    intro r _
    cases recGet? r.scores S <;> rfl
  have hden : (s :: rest).length =
      (results.filter (fun r => (recGet? r.scores S).isSome)).length := by
    rw [← hrep, reportedScores,
      length_filterMap_eq_count (fun r => (recGet? r.scores S).map (fun sr => sr.score)) results]
    apply congrArg
    apply List.filter_congr
    intro r _
    cases recGet? r.scores S <;> rfl
  show (((s :: rest).filter (fun x => decide (1 ≤ x))).length : ℚ) / ((s :: rest).length : ℚ) = _
  rw [hnum, hden]

/-- A minimal iteration-result fixture. -/
def demoResult (i : ℕ) (sc : List (String × ScorerResult)) (succ : Bool) : IterationResult :=
  { iterationId := i, success := succ, duration := 5, scores := sc, diff := "",
    tokenUsage := none, workingDir := none, environmentVariables := [], error := none }

/-- Three trials: two report scorer `demo` (scores 1 and 0), one does not. -/
def aggDemoResults : List IterationResult :=
  [demoResult 0 [("demo", { score := 1, reason := "ok" })] true,
   demoResult 1 [("demo", { score := 0, reason := "half" })] false,
   demoResult 2 [] false]

/-- Witness for C6 at the three-trial fixture. -/
theorem aggregate_per_scorer_stats_witness :
    (("demo" : String) ≠ "_overall" ∧
      reportedScores aggDemoResults "demo" = [1, 0]) ∧
    (recGet? (calculateAggregateScores aggDemoResults) "demo" =
        some (aggForScores 1 [0]) ∧
      (aggForScores 1 [0]).passRate =
        ((aggDemoResults.filter (fun r =>
            ((recGet? r.scores "demo").map
              (fun sr => decide (1 ≤ sr.score))).getD false)).length : ℚ) /
        ((aggDemoResults.filter (fun r => (recGet? r.scores "demo").isSome)).length : ℚ) ∧
      (∀ results2 : List IterationResult, reportedScores results2 "demo" = [1, 0] →
        recGet? (calculateAggregateScores results2) "demo" = some (aggForScores 1 [0]))) :=
  ⟨⟨by decide, by decide⟩,
   aggregate_per_scorer_stats aggDemoResults "demo" (by decide) 1 [0] (by decide)⟩

/-! ### Claim C7 -/

/-- C7 amended: for a non-empty trial set the aggregates contain the
synthetic `_overall` entry, computed from trial-level `success`; its
`mean`, `min`, `max` and `passRate` are all `count(success)/count(trials)`,
but its standard deviation is the constant `0`, not that fraction. -/
theorem overall_entry_amended (results : List IterationResult) (hne : results ≠ []) :
    recGet? (calculateAggregateScores results) "_overall" = some (overallAgg results) ∧
    (overallAgg results).mean =
      ((results.filter (fun r => r.success)).length : ℚ) / (results.length : ℚ) ∧
    (overallAgg results).min = (overallAgg results).mean ∧
    (overallAgg results).max = (overallAgg results).mean ∧
    (overallAgg results).passRate = (overallAgg results).mean ∧
    (overallAgg results).stdDevSq = 0 := by
  refine ⟨?_, rfl, rfl, rfl, rfl, rfl⟩
  simp only [calculateAggregateScores]
  exact recGet_recSet_self _ _ _

/-- One successful trial with no scores. -/
def overallDemoResult : IterationResult := demoResult 0 [] true

/-- Counterexample to C7 as stated: the claim makes every component of
`_overall` — including the standard deviation — equal to
`count(success)/count(trials)`.  With one successful trial that fraction is
1, so the claim requires `stdDev = 1`, i.e. `stdDevSq = 1`; but the source
hardcodes `stdDev: 0`, so `stdDevSq = 0`. -/
theorem overall_stddev_counterexample :
    ¬ (∀ a, recGet? (calculateAggregateScores [overallDemoResult]) "_overall" = some a →
        a.mean = 1 ∧ a.min = 1 ∧ a.max = 1 ∧ a.stdDevSq = 1 ∧ a.passRate = 1) := by
  intro h
  have hget : recGet? (calculateAggregateScores [overallDemoResult]) "_overall" =
      some (overallAgg [overallDemoResult]) := by
    simp only [calculateAggregateScores]
    exact recGet_recSet_self _ _ _
  have h5 := (h _ hget).2.2.2.1
  norm_num [overallAgg] at h5

/-- Witness for C7's amended theorem at the one-trial fixture. -/
theorem overall_entry_amended_witness :
    ([overallDemoResult] ≠ ([] : List IterationResult)) ∧
    (recGet? (calculateAggregateScores [overallDemoResult]) "_overall" =
        some (overallAgg [overallDemoResult]) ∧
      (overallAgg [overallDemoResult]).mean =
        ((([overallDemoResult] : List IterationResult).filter
            (fun r => r.success)).length : ℚ) /
          (([overallDemoResult] : List IterationResult).length : ℚ) ∧
      (overallAgg [overallDemoResult]).min = (overallAgg [overallDemoResult]).mean ∧
      (overallAgg [overallDemoResult]).max = (overallAgg [overallDemoResult]).mean ∧
      (overallAgg [overallDemoResult]).passRate = (overallAgg [overallDemoResult]).mean ∧
      (overallAgg [overallDemoResult]).stdDevSq = 0) :=
  ⟨by simp, overall_entry_amended [overallDemoResult] (by simp)⟩

/-! ### Claim C8 -/

theorem trialBody_ok_scores_nil (cfg : EvalConfig) (io : TrialEffects) (td : Path)
    (vs : EnvRec) (hsc : cfg.scorers = []) (p : TrialPayload)
    (h : (trialBody cfg io td vs).1 = .ok p) : p.scores = [] := by
  rcases hc : io.copyErr with - | m
  · rcases hg : (gitPhase io td).1 with m | u
    · rw [show (trialBody cfg io td vs).1 = .error m from by simp [trialBody, hc, hg]] at h
      exact Except.noConfusion h
    · rcases hwv : (envFilePhase io td vs).1 with m | u2
      · rw [show (trialBody cfg io td vs).1 = .error m from by
          simp [trialBody, hc, hg, hwv]] at h
        exact Except.noConfusion h
      · rcases ha : io.agentResult with m | pr
        · rw [show (trialBody cfg io td vs).1 = .error m from by
            simp [trialBody, hc, hg, hwv, agentAndScore, ha]] at h
          exact Except.noConfusion h
        · obtain ⟨out, usage⟩ := pr
          rcases hd : io.diffResult with m | diff
          · rw [show (trialBody cfg io td vs).1 = .error m from by
              simp [trialBody, hc, hg, hwv, agentAndScore, ha, hd]] at h
            exact Except.noConfusion h
          · rw [show (trialBody cfg io td vs).1 =
                .ok { scores := [], diff := diff, tokenUsage := usage } from by
              simp [trialBody, hc, hg, hwv, agentAndScore, ha, hd, hsc, scorerLoop]] at h
            injection h with h2
            rw [← h2]
  · rw [show (trialBody cfg io td vs).1 = .error m from by simp [trialBody, hc]] at h
    exact Except.noConfusion h

/-- C8 amended: in a run configured with no scorers, every trial that
completes without an error has `success = true` (the vacuous "every" over
an empty score set), and — provided every trial in fact completed without
an error — the synthetic `_overall` entry has `passRate = 1`.  (A trial
that fails with a trial-scoped error still has `success = false`, which
drags `passRate` below 1, so the error-free proviso is necessary.) -/
theorem no_scorer_success_amended (cfg : EvalConfig) (io : RunEffects) (N : ℕ)
    (hsc : cfg.scorers = [])
    (henv : ∀ i, i < N → ∃ vs, envPhase cfg (mkCtx cfg N i) = .ok vs)
    (hN : 0 < N) :
    ∃ res evs, runClaudeCodeEval cfg io N = .ok (res, evs) ∧
      (∀ r ∈ res.iterations, r.error = none → r.success = true) ∧
      ((∀ r ∈ res.iterations, r.error = none) →
        ∃ a, recGet? res.aggregateScores "_overall" = some a ∧ a.passRate = 1) := by
  have henvL : ∀ i, i ∈ List.range N → ∃ vs, envPhase cfg (mkCtx cfg N i) = .ok vs :=
    fun i hi => henv i (List.mem_range.mp hi)
  obtain ⟨rs, evs, hrun, hlen, hidx, -⟩ := runTrialsOn_ok cfg io N (List.range N) henvL
  have hEval := runClaudeCodeEval_eq_of cfg io N rs evs hrun
  have hgood : ∀ r ∈ rs, r.error = none → r.success = true := by
    intro r hr herr
    obtain ⟨j, hj⟩ := List.mem_iff_getElem?.mp hr
    have hjlen : j < rs.length := by
      by_contra hcon
      rw [List.getElem?_eq_none (by omega)] at hj
      cases hj
    have hjN : j < N := by
      rw [hlen] at hjlen
      simpa using hjlen
    have hLj : (List.range N)[j]? = some j := by
      simp [List.getElem?_range, hjN]
    obtain ⟨r2, ev2, heq, hr2⟩ := hidx j j hLj
    rw [hj] at hr2
    have hrr : r = r2 := Option.some.inj hr2
    obtain ⟨vs, hvs⟩ := henv j hjN
    rw [runSingleIteration_ok_eq cfg (io.trial j) (mkCtx cfg N j) vs hvs] at heq
    have hval : r = finishTrial cfg (io.trial j) (mkCtx cfg N j) (trialTempDir (io.trial j)) vs
        (trialBody cfg (io.trial j) (trialTempDir (io.trial j)) vs).1 := by
      rw [hrr]
      injection heq with h3
      exact (congrArg Prod.fst h3).symm
    rcases hb : (trialBody cfg (io.trial j) (trialTempDir (io.trial j)) vs).1 with m | p
    · rw [hval, hb] at herr
      simp [finishTrial] at herr
    · have hps := trialBody_ok_scores_nil cfg (io.trial j) (trialTempDir (io.trial j)) vs hsc p hb
      rw [hval, hb]
      simp [finishTrial, hps]
  refine ⟨_, evs, hEval, ?_, ?_⟩
  · intro r hr herr
    exact hgood r hr herr
  · intro hall
    have hallrs : ∀ r ∈ rs, r.error = none := hall
    refine ⟨overallAgg rs, ?_, ?_⟩
    · show recGet? (calculateAggregateScores rs) "_overall" = some (overallAgg rs)
      simp only [calculateAggregateScores]
      exact recGet_recSet_self _ _ _
    · have hfil : rs.filter (fun r => r.success) = rs :=
        List.filter_eq_self.mpr (fun r hr => by simp [hgood r hr (hallrs r hr)])
      have hlenN : rs.length = N := by simpa using hlen
      have hlen0 : (rs.length : ℚ) ≠ 0 := by
        rw [hlenN]
        exact Nat.cast_ne_zero.mpr (by omega)
      simp only [overallAgg, hfil]
      exact div_self hlen0

/-- Run effects where every trial's copy step throws. -/
def runCopyFail : RunEffects :=
  { trial := fun _ => failCopyEffects, timestamp := "t", durationMs := 9 }

/-- Counterexample to C8 as stated: with no scorers configured but one
trial failing with a trial-scoped error (its copy step throws), the claim's
unconditional `_overall.passRate = 1.0` fails — the failed trial has
`success = false`, so the pass rate is 0. -/
theorem no_scorer_passrate_counterexample :
    ¬ (∀ res evs, runClaudeCodeEval cfgSimple runCopyFail 1 = .ok (res, evs) →
        ∃ a, recGet? res.aggregateScores "_overall" = some a ∧ a.passRate = 1) := by
  intro h
  obtain ⟨rs, evs, hrun, hlen, hidx, -⟩ :=
    runTrialsOn_ok cfgSimple runCopyFail 1 (List.range 1) (fun i _ => ⟨[], rfl⟩)
  have hEval := runClaudeCodeEval_eq_of cfgSimple runCopyFail 1 rs evs hrun
  obtain ⟨a, ha, hp⟩ := h _ _ hEval
  obtain ⟨r, ev, heq, hr0⟩ := hidx 0 0 (by simp)
  rw [runSingleIteration_ok_eq cfgSimple (runCopyFail.trial 0) (mkCtx cfgSimple 1 0) [] rfl]
    at heq
  have hval : r = finishTrial cfgSimple (runCopyFail.trial 0) (mkCtx cfgSimple 1 0)
      (trialTempDir (runCopyFail.trial 0)) []
      (trialBody cfgSimple (runCopyFail.trial 0) (trialTempDir (runCopyFail.trial 0)) []).1 := by
    injection heq with h3
    exact (congrArg Prod.fst h3).symm
  have hsucc : r.success = false := by
    rw [hval]
    rfl
  rcases rs with - | ⟨x, xs⟩
  · simp at hr0
  · rcases xs with - | ⟨y, ys⟩
    · have hx : x = r := by simpa using hr0
      subst hx
      have ha2 : recGet? (calculateAggregateScores [x]) "_overall" = some a := ha
      have hget : recGet? (calculateAggregateScores [x]) "_overall" =
          some (overallAgg [x]) := by
        simp only [calculateAggregateScores]
        exact recGet_recSet_self _ _ _
      rw [hget] at ha2
      have haa : a = overallAgg [x] := (Option.some.inj ha2).symm
      rw [haa] at hp
      have hfil : List.filter (fun q => q.success) [x] = [] := by
        simp [hsucc]
      simp only [overallAgg, hfil] at hp
      simp at hp
    · simp at hlen

/-- Witness for C8's amended theorem on a one-trial run with all effects
succeeding. -/
theorem no_scorer_success_amended_witness :
    (cfgSimple.scorers = [] ∧ 0 < 1) ∧
    (∃ res evs, runClaudeCodeEval cfgSimple runAllOk 1 = .ok (res, evs) ∧
      (∀ r ∈ res.iterations, r.error = none → r.success = true) ∧
      ((∀ r ∈ res.iterations, r.error = none) →
        ∃ a, recGet? res.aggregateScores "_overall" = some a ∧ a.passRate = 1)) :=
  ⟨⟨rfl, by norm_num⟩,
   no_scorer_success_amended cfgSimple runAllOk 1 rfl (fun _ _ => ⟨[], rfl⟩) (by norm_num)⟩

/-! ### Claim C4 -/

/-- C4: an execution configuration in `parallel-limit` mode with no
concurrency value makes the run entry point raise the fatal
`ConfigurationError` immediately: the run returns the error and its event
trace is empty — no workspace is provisioned and no trial starts. -/
theorem parallel_limit_requires_concurrency (cfg : EvalConfig) (exec : ExecutionConfig)
    (io : RunEffects) (N : ℕ) (hm : exec.mode = .parallelLimit)
    (hc : exec.concurrency = none) :
    runEvalWithExecution cfg exec io N =
      (.error "ConfigurationError: concurrency is required when mode is \"parallel-limit\"",
        []) ∧
    (runEvalWithExecution cfg exec io N).2 = [] := by
  obtain ⟨mode, conc⟩ := exec
  cases hm
  cases hc
  exact ⟨rfl, rfl⟩

/-- A `parallel-limit` execution configuration missing its concurrency. -/
def execNoConc : ExecutionConfig := { mode := .parallelLimit, concurrency := none }

/-- Witness for C4 at a concrete three-trial configuration. -/
theorem parallel_limit_requires_concurrency_witness :
    (execNoConc.mode = .parallelLimit ∧ execNoConc.concurrency = none) ∧
    (runEvalWithExecution cfgSimple execNoConc runAllOk 3 =
       (.error "ConfigurationError: concurrency is required when mode is \"parallel-limit\"",
         []) ∧
     (runEvalWithExecution cfgSimple execNoConc runAllOk 3).2 = []) :=
  ⟨⟨rfl, rfl⟩, parallel_limit_requires_concurrency cfgSimple execNoConc runAllOk 3 rfl rfl⟩

/-! ### Claim C9 -/

/-- C9: the disposal step deletes the workspace exactly when the cleanup
policy together with the trial outcome does not dictate retention —
`always` deletes, `on-failure` retains only failed trials' workspaces,
`never` deletes nothing — and whenever the workspace is retained its path
is recorded on the trial's result. -/
theorem workspace_disposal_policy (tempDir : Path) (r : IterationResult) :
    (disposeWorkspace .always tempDir r).2 = [Event.fsRemove tempDir] ∧
    (disposeWorkspace .onFailure tempDir r).2 =
      (if r.success then [Event.fsRemove tempDir] else []) ∧
    (disposeWorkspace .never tempDir r).2 = [] ∧
    (∀ policy, shouldRetainWorkspace policy r.success = true →
      (disposeWorkspace policy tempDir r).1.workingDir = some tempDir) ∧
    (∀ policy, shouldRetainWorkspace policy r.success = false →
      (disposeWorkspace policy tempDir r).2 = [Event.fsRemove tempDir]) := by
  refine ⟨rfl, ?_, ?_, ?_, ?_⟩
  · by_cases hs : r.success <;> simp [disposeWorkspace, shouldRetainWorkspace, hs]
  · simp [disposeWorkspace, shouldRetainWorkspace]
  · intro policy hp
    simp [disposeWorkspace, hp]
  · intro policy hp
    simp [disposeWorkspace, hp]

/-- Witness for C9 at a concrete workspace path and result. -/
theorem workspace_disposal_policy_witness :
    (disposeWorkspace .always ["tmp", "eval-u0"] overallDemoResult).2 =
      [Event.fsRemove ["tmp", "eval-u0"]] ∧
    (disposeWorkspace .never ["tmp", "eval-u0"] overallDemoResult).1.workingDir =
      some ["tmp", "eval-u0"] := by
  obtain ⟨h1, h2, h3, h4, h5⟩ := workspace_disposal_policy ["tmp", "eval-u0"] overallDemoResult
  exact ⟨h1, h4 .never rfl⟩

end CodeAgentEval
